import Mathlib

/-!
Verification development for the Confluence agentic-RAG repository.

Shallow embedding of the graph-metrics batch job
(src/func-app/common/graph_metrics.py), the graph enricher
(src/func-app/graph_enricher.py), the hybrid retriever
(src/ZZZ_embedding/retriever.py) and the progressive-retrieval
orchestrator (src/agents/confluence_qa_orchestrator.py).

Python floats are modelled as rationals, page/chunk identifiers as
natural numbers or strings, dictionaries as insertion-ordered
association lists, and exceptions as the Except monad.
-/

namespace Enricher

/-- A page record returned by the Gremlin lookups of graph_enricher.py
(valueMap projections of id / title / space_key). -/
structure PageInfo where
  id : String
  title : String
  spaceKey : String
deriving DecidableEq

/-- Embedding of GraphEnricher._calculate_enhanced_confidence: starts from a
boost factor of 1.0, adds 0.05 per ancestor (at most 3 counted), 0.03 per
child (at most 5), 0.02 per related page (at most 5), clamps the factor to
1.2 and the final product with the base confidence to 1.0.  The additive terms
are guarded by non-emptiness checks exactly as in the source. -/
def calculate_enhanced_confidence (base_confidence : ℚ)
    (ancestors children related_pages : List PageInfo) : ℚ :=
  let b0 : ℚ := 1
  let b1 : ℚ := if ancestors = [] then b0 else b0 + (1/20) * (min ancestors.length 3 : ℕ)
  let b2 : ℚ := if children = [] then b1 else b1 + (3/100) * (min children.length 5 : ℕ)
  let b3 : ℚ := if related_pages = [] then b2 else b2 + (1/50) * (min related_pages.length 5 : ℕ)
  let boost_factor := min b3 (6/5)
  min (base_confidence * boost_factor) 1

/-- The non-emptiness guard around each boost term is redundant: when the list
is empty the capped count is 0 and the term vanishes anyway. -/
lemma boost_guard_eq (b q : ℚ) (c : ℕ) (l : List PageInfo) :
    (if l = [] then b else b + q * (min l.length c : ℕ)) = b + q * (min l.length c : ℕ) := by
  rcases l with _ | ⟨x, xs⟩ <;> simp

end Enricher

namespace GraphMetrics

/-- All vertices incident to at least one ParentOf edge, in order of first
appearance — the node set of the networkx DiGraph built by
_compute_hierarchy_metrics. -/
def nodesOf (edges : List (ℕ × ℕ)) : List ℕ :=
  (edges.foldr (fun e acc => e.1 :: e.2 :: acc) []).dedup

/-- Distinct successors of a vertex in the DiGraph (networkx collapses
parallel edges). -/
def succs (edges : List (ℕ × ℕ)) (u : ℕ) : List ℕ :=
  ((edges.filter (fun e => e.1 = u)).map (fun e => e.2)).dedup

/-- Roots: vertices that never appear as the child of an edge. -/
def rootsOf (edges : List (ℕ × ℕ)) : List ℕ :=
  (nodesOf edges).filter (fun n => ¬ edges.any (fun e => e.2 = n))

/-- One breadth step applied to a set of vertices. -/
def stepSet (edges : List (ℕ × ℕ)) (s : Finset ℕ) : Finset ℕ :=
  s.biUnion (fun u => (succs edges u).toFinset)

/-- Vertices reachable from the root in at most k steps (the cumulative
breadth-first frontier of nx.single_source_shortest_path_length). -/
def reachIn (edges : List (ℕ × ℕ)) (r : ℕ) : ℕ → Finset ℕ
  | 0 => {r}
  | k + 1 => reachIn edges r k ∪ stepSet edges (reachIn edges r k)

/-- The vertex universe relevant to a breadth-first search from r. -/
def nodeFin (edges : List (ℕ × ℕ)) (r : ℕ) : Finset ℕ :=
  insert r (nodesOf edges).toFinset

/-- First index i in the window of the given width at which the predicate
holds. -/
def firstIdx (p : ℕ → Bool) : ℕ → ℕ → Option ℕ
  | _, 0 => none
  | i, f + 1 => if p i then some i else firstIdx p (i + 1) f

/-- Breadth-first shortest-path distance from r to v, the semantics of
nx.single_source_shortest_path_length: some d iff v is reachable and d is
minimal. -/
def bfsDist (edges : List (ℕ × ℕ)) (r v : ℕ) : Option ℕ :=
  firstIdx (fun k => decide (v ∈ reachIn edges r k)) 0 ((nodeFin edges r).card + 1)

/-- Embedding of the depth computation of _compute_hierarchy_metrics: every
node starts at depth 0, and for each root the breadth-first distance is folded
in with max (only reachable nodes appear in the traversal result). -/
def hierarchy_depth (edges : List (ℕ × ℕ)) (n : ℕ) : ℕ :=
  (rootsOf edges).foldl
    (fun acc r => match bfsDist edges r n with
      | some d => max acc d
      | none => acc) 0

/-- The child-id list of _compute_hierarchy_metrics: built by appending the
child of every (parent, child) edge, duplicates included. -/
def child_ids (edges : List (ℕ × ℕ)) (p : ℕ) : List ℕ :=
  (edges.filter (fun e => e.1 = p)).map (fun e => e.2)

/-- The child_count persisted by _persist_metrics: the length of the child-id
list. -/
def child_count (edges : List (ℕ × ℕ)) (p : ℕ) : ℕ :=
  (child_ids edges p).length

/-- Number of distinct children of p — what the claim says child_count is. -/
def distinct_child_count (edges : List (ℕ × ℕ)) (p : ℕ) : ℕ :=
  (child_ids edges p).dedup.length

/-- Existence of a directed path with exactly k edges from u to v. -/
def hasPathLen (edges : List (ℕ × ℕ)) : ℕ → ℕ → ℕ → Bool
  | u, v, 0 => decide (u = v)
  | u, v, k + 1 => (succs edges u).any (fun w => hasPathLen edges w v k)

/-- d is the shortest-path distance from r to n. -/
def IsShortestDist (edges : List (ℕ × ℕ)) (r n d : ℕ) : Prop :=
  hasPathLen edges r n d = true ∧ ∀ j < d, hasPathLen edges r n j = false

lemma hasPathLen_zero_iff {edges : List (ℕ × ℕ)} {u v : ℕ} :
    hasPathLen edges u v 0 = true ↔ u = v := by
  rw [show hasPathLen edges u v 0 = decide (u = v) from rfl]
  exact decide_eq_true_iff

lemma hasPathLen_succ_iff {edges : List (ℕ × ℕ)} {u v k : ℕ} :
    hasPathLen edges u v (k + 1) = true
      ↔ ∃ w ∈ succs edges u, hasPathLen edges w v k = true := by
  rw [show hasPathLen edges u v (k + 1)
        = (succs edges u).any (fun w => hasPathLen edges w v k) from rfl]
  exact List.any_eq_true

lemma mem_foldr_nodes (edges : List (ℕ × ℕ)) (x : ℕ) :
    x ∈ edges.foldr (fun e acc => e.1 :: e.2 :: acc) []
      ↔ ∃ e ∈ edges, x = e.1 ∨ x = e.2 := by
  induction edges with
  | nil => simp
  | cons hd tl ih =>
    simp only [List.foldr_cons, List.mem_cons, ih]
    constructor
    · rintro (h | h | ⟨e, he, h⟩)
      · exact ⟨hd, Or.inl rfl, Or.inl h⟩
      · exact ⟨hd, Or.inl rfl, Or.inr h⟩
      · exact ⟨e, Or.inr he, h⟩
    · rintro ⟨e, he | he, h⟩
      · subst he
        rcases h with h | h
        · exact Or.inl h
        · exact Or.inr (Or.inl h)
      · exact Or.inr (Or.inr ⟨e, he, h⟩)

lemma mem_nodesOf_of_mem_snd {edges : List (ℕ × ℕ)} {e : ℕ × ℕ} (he : e ∈ edges) :
    e.2 ∈ nodesOf edges := by
  unfold nodesOf
  rw [List.mem_dedup, mem_foldr_nodes]
  exact ⟨e, he, Or.inr rfl⟩

lemma succs_subset_nodesOf {edges : List (ℕ × ℕ)} {u w : ℕ} (hw : w ∈ succs edges u) :
    w ∈ nodesOf edges := by
  unfold succs at hw
  rw [List.mem_dedup, List.mem_map] at hw
  obtain ⟨e, he, rfl⟩ := hw
  exact mem_nodesOf_of_mem_snd (List.mem_of_mem_filter he)

lemma reachIn_mono_succ (edges : List (ℕ × ℕ)) (r k : ℕ) :
    reachIn edges r k ⊆ reachIn edges r (k + 1) := by
  rw [show reachIn edges r (k + 1)
        = reachIn edges r k ∪ stepSet edges (reachIn edges r k) from rfl]
  exact Finset.subset_union_left

lemma reachIn_mono (edges : List (ℕ × ℕ)) (r : ℕ) {k m : ℕ} (h : k ≤ m) :
    reachIn edges r k ⊆ reachIn edges r m := by
  induction m with
  | zero =>
    have hk : k = 0 := Nat.le_zero.mp h
    subst hk
    exact Finset.Subset.refl _
  | succ m ih =>
    rcases Nat.lt_or_ge k (m + 1) with hk | hk
    · exact (ih (Nat.lt_succ_iff.mp hk)).trans (reachIn_mono_succ edges r m)
    · have hk2 : k = m + 1 := Nat.le_antisymm h hk
      subst hk2
      exact Finset.Subset.refl _

lemma hasPathLen_snoc {edges : List (ℕ × ℕ)} {r u v j : ℕ}
    (h : hasPathLen edges r u j = true) (hv : v ∈ succs edges u) :
    hasPathLen edges r v (j + 1) = true := by
  induction j generalizing r with
  | zero =>
    have hr : r = u := hasPathLen_zero_iff.mp h
    subst hr
    exact hasPathLen_succ_iff.mpr ⟨v, hv, hasPathLen_zero_iff.mpr rfl⟩
  | succ j ih =>
    obtain ⟨w, hw, hpath⟩ := hasPathLen_succ_iff.mp h
    exact hasPathLen_succ_iff.mpr ⟨w, hw, ih hpath⟩

lemma hasPathLen_snoc_elim {edges : List (ℕ × ℕ)} {r v j : ℕ}
    (h : hasPathLen edges r v (j + 1) = true) :
    ∃ u, hasPathLen edges r u j = true ∧ v ∈ succs edges u := by
  induction j generalizing r with
  | zero =>
    obtain ⟨w, hw, hpath⟩ := hasPathLen_succ_iff.mp h
    have hwv : w = v := hasPathLen_zero_iff.mp hpath
    subst hwv
    exact ⟨r, hasPathLen_zero_iff.mpr rfl, hw⟩
  | succ j ih =>
    obtain ⟨w, hw, hpath⟩ := hasPathLen_succ_iff.mp h
    obtain ⟨u, hu, hvu⟩ := ih hpath
    exact ⟨u, hasPathLen_succ_iff.mpr ⟨w, hw, hu⟩, hvu⟩

lemma mem_reachIn {edges : List (ℕ × ℕ)} {r : ℕ} :
    ∀ (k v : ℕ), v ∈ reachIn edges r k ↔ ∃ j ≤ k, hasPathLen edges r v j = true := by
  intro k
  induction k with
  | zero =>
    intro v
    rw [show reachIn edges r 0 = {r} from rfl, Finset.mem_singleton]
    constructor
    · rintro rfl
      exact ⟨0, Nat.le_refl 0, hasPathLen_zero_iff.mpr rfl⟩
    · rintro ⟨j, hj, hpath⟩
      rw [Nat.le_zero.mp hj] at hpath
      exact (hasPathLen_zero_iff.mp hpath).symm
  | succ k ih =>
    intro v
    rw [show reachIn edges r (k + 1)
          = reachIn edges r k ∪ stepSet edges (reachIn edges r k) from rfl,
        Finset.mem_union]
    constructor
    · rintro (h | h)
      · obtain ⟨j, hj, hpath⟩ := (ih v).mp h
        exact ⟨j, Nat.le_succ_of_le hj, hpath⟩
      · simp only [stepSet, Finset.mem_biUnion, List.mem_toFinset] at h
        obtain ⟨u, hu, hv⟩ := h
        obtain ⟨j, hj, hpath⟩ := (ih u).mp hu
        exact ⟨j + 1, Nat.succ_le_succ hj, hasPathLen_snoc hpath hv⟩
    · rintro ⟨j, hj, hpath⟩
      rcases Nat.lt_or_ge j (k + 1) with hjk | hjk
      · exact Or.inl ((ih v).mpr ⟨j, Nat.lt_succ_iff.mp hjk, hpath⟩)
      · have hje : j = k + 1 := Nat.le_antisymm hj hjk
        subst hje
        obtain ⟨u, hu, hvu⟩ := hasPathLen_snoc_elim hpath
        refine Or.inr ?_
        simp only [stepSet, Finset.mem_biUnion, List.mem_toFinset]
        exact ⟨u, (ih u).mpr ⟨k, Nat.le_refl k, hu⟩, hvu⟩

lemma reachIn_subset_nodeFin (edges : List (ℕ × ℕ)) (r : ℕ) :
    ∀ k, reachIn edges r k ⊆ nodeFin edges r := by
  intro k
  induction k with
  | zero =>
    intro x hx
    rw [show reachIn edges r 0 = {r} from rfl, Finset.mem_singleton] at hx
    subst hx
    exact Finset.mem_insert_self _ _
  | succ k ih =>
    intro x hx
    rw [show reachIn edges r (k + 1)
          = reachIn edges r k ∪ stepSet edges (reachIn edges r k) from rfl,
        Finset.mem_union] at hx
    rcases hx with hx | hx
    · exact ih hx
    · simp only [stepSet, Finset.mem_biUnion, List.mem_toFinset] at hx
      obtain ⟨u, _, hxu⟩ := hx
      exact Finset.mem_insert_of_mem (List.mem_toFinset.mpr (succs_subset_nodesOf hxu))

lemma reachIn_stab_succ {edges : List (ℕ × ℕ)} {r k : ℕ}
    (h : reachIn edges r (k + 1) = reachIn edges r k) :
    ∀ m, reachIn edges r (k + m) = reachIn edges r k := by
  intro m
  induction m with
  | zero => rfl
  | succ m ih =>
    have : reachIn edges r (k + (m + 1))
        = reachIn edges r (k + m) ∪ stepSet edges (reachIn edges r (k + m)) := rfl
    rw [this, ih]
    exact h

lemma reachIn_growth {edges : List (ℕ × ℕ)} {r : ℕ} :
    ∀ k, (∀ j < k, reachIn edges r (j + 1) ≠ reachIn edges r j) →
      k + 1 ≤ (reachIn edges r k).card := by
  intro k
  induction k with
  | zero =>
    intro _
    rw [show reachIn edges r 0 = {r} from rfl]
    simp
  | succ k ih =>
    intro h
    have h1 : k + 1 ≤ (reachIn edges r k).card :=
      ih (fun j hj => h j (Nat.lt_succ_of_lt hj))
    have hss : reachIn edges r k ⊂ reachIn edges r (k + 1) :=
      lt_of_le_of_ne (reachIn_mono_succ edges r k) (Ne.symm (h k (Nat.lt_succ_self k)))
    exact Nat.succ_le_of_lt (Nat.lt_of_le_of_lt h1 (Finset.card_lt_card hss))

lemma reachIn_stab_at_card (edges : List (ℕ × ℕ)) (r : ℕ) :
    ∀ m, (nodeFin edges r).card ≤ m →
      reachIn edges r m = reachIn edges r ((nodeFin edges r).card) := by
  have hstab : ∃ j < (nodeFin edges r).card,
      reachIn edges r (j + 1) = reachIn edges r j := by
    by_contra hc
    push_neg at hc
    have hgrow := reachIn_growth ((nodeFin edges r).card) hc
    have hle : (reachIn edges r ((nodeFin edges r).card)).card ≤ (nodeFin edges r).card :=
      Finset.card_le_card (reachIn_subset_nodeFin edges r _)
    omega
  obtain ⟨j, hj, hfix⟩ := hstab
  have hall : ∀ m, j ≤ m → reachIn edges r m = reachIn edges r j := by
    intro m hm
    have : reachIn edges r (j + (m - j)) = reachIn edges r j := reachIn_stab_succ hfix _
    rwa [Nat.add_sub_cancel' hm] at this
  intro m hm
  rw [hall m (Nat.le_trans (Nat.le_of_lt hj) hm), hall ((nodeFin edges r).card) (Nat.le_of_lt hj)]

lemma reachable_mem_reachN {edges : List (ℕ × ℕ)} {r v j : ℕ}
    (h : hasPathLen edges r v j = true) :
    v ∈ reachIn edges r ((nodeFin edges r).card) := by
  rcases le_or_lt j ((nodeFin edges r).card) with hj | hj
  · exact reachIn_mono edges r hj ((mem_reachIn j v).mpr ⟨j, Nat.le_refl j, h⟩)
  · have := reachIn_stab_at_card edges r j (Nat.le_of_lt hj)
    rw [← this]
    exact (mem_reachIn j v).mpr ⟨j, Nat.le_refl j, h⟩

lemma firstIdx_some {p : ℕ → Bool} :
    ∀ (f i d : ℕ), firstIdx p i f = some d →
      p d = true ∧ i ≤ d ∧ ∀ j, i ≤ j → j < d → p j = false := by
  intro f
  induction f with
  | zero => intro i d h; cases h
  | succ f ih =>
    intro i d h
    rw [show firstIdx p i (f + 1) = if p i then some i else firstIdx p (i + 1) f from rfl] at h
    by_cases hp : p i = true
    · rw [if_pos hp] at h
      cases h
      exact ⟨hp, Nat.le_refl _, fun j hj1 hj2 => absurd (Nat.lt_of_le_of_lt hj1 hj2)
        (Nat.lt_irrefl _)⟩
    · rw [if_neg (by simpa using hp)] at h
      obtain ⟨h1, h2, h3⟩ := ih (i + 1) d h
      refine ⟨h1, Nat.le_trans (Nat.le_succ i) h2, fun j hj1 hj2 => ?_⟩
      rcases Nat.eq_or_lt_of_le hj1 with hj | hj
      · rw [← hj]
        exact Bool.not_eq_true _ ▸ (by simpa using hp)
      · exact h3 j hj hj2

lemma firstIdx_none {p : ℕ → Bool} :
    ∀ (f i : ℕ), firstIdx p i f = none → ∀ j, i ≤ j → j < i + f → p j = false := by
  intro f
  induction f with
  | zero => intro i _ j hj1 hj2; omega
  | succ f ih =>
    intro i h j hj1 hj2
    rw [show firstIdx p i (f + 1) = if p i then some i else firstIdx p (i + 1) f from rfl] at h
    by_cases hp : p i = true
    · rw [if_pos hp] at h; cases h
    · rw [if_neg (by simpa using hp)] at h
      rcases Nat.eq_or_lt_of_le hj1 with hj | hj
      · rw [← hj]
        simpa using hp
      · exact ih (i + 1) h j hj (by omega)

lemma firstIdx_complete {p : ℕ → Bool} :
    ∀ (f i m : ℕ), p m = true → i ≤ m → m < i + f →
      ∃ d, firstIdx p i f = some d ∧ d ≤ m := by
  intro f
  induction f with
  | zero => intro i m _ _ _; omega
  | succ f ih =>
    intro i m hm hi hif
    rw [show firstIdx p i (f + 1) = if p i then some i else firstIdx p (i + 1) f from rfl]
    by_cases hp : p i = true
    · rw [if_pos hp]
      exact ⟨i, rfl, hi⟩
    · rw [if_neg (by simpa using hp)]
      have him : i ≠ m := by
        rintro rfl
        exact hp hm
      obtain ⟨d, hd1, hd2⟩ := ih (i + 1) m hm (by omega) (by omega)
      exact ⟨d, hd1, hd2⟩

lemma bfsDist_some_shortest {edges : List (ℕ × ℕ)} {r v d : ℕ}
    (h : bfsDist edges r v = some d) : IsShortestDist edges r v d := by
  obtain ⟨h1, _, h3⟩ := firstIdx_some _ _ _ h
  have hmem : v ∈ reachIn edges r d := of_decide_eq_true h1
  have hmin : ∀ j < d, hasPathLen edges r v j = false := by
    intro j hj
    by_contra hc
    have hpj : hasPathLen edges r v j = true := by
      cases hpq : hasPathLen edges r v j
      · exact absurd hpq hc
      · rfl
    have : v ∈ reachIn edges r j := (mem_reachIn j v).mpr ⟨j, Nat.le_refl j, hpj⟩
    have := h3 j (Nat.zero_le j) hj
    rw [decide_eq_false_iff_not] at this
    exact this ‹v ∈ reachIn edges r j›
  obtain ⟨j, hj, hpath⟩ := (mem_reachIn d v).mp hmem
  rcases Nat.eq_or_lt_of_le hj with hje | hjl
  · rw [hje] at hpath
    exact ⟨hpath, hmin⟩
  · exact absurd hpath (by rw [hmin j hjl]; simp)

lemma bfsDist_none_unreachable {edges : List (ℕ × ℕ)} {r v : ℕ}
    (h : bfsDist edges r v = none) : ∀ k, hasPathLen edges r v k = false := by
  intro k
  cases hk : hasPathLen edges r v k
  · rfl
  · have hmem := reachable_mem_reachN hk
    have := firstIdx_none _ _ h ((nodeFin edges r).card) (Nat.zero_le _) (by omega)
    rw [decide_eq_false_iff_not] at this
    exact absurd hmem this

lemma shortest_bfsDist {edges : List (ℕ × ℕ)} {r v d : ℕ}
    (h : IsShortestDist edges r v d) : bfsDist edges r v = some d := by
  obtain ⟨hpath, hmin⟩ := h
  have hN : v ∈ reachIn edges r (min d ((nodeFin edges r).card)) := by
    rcases le_or_lt d ((nodeFin edges r).card) with hd | hd
    · rw [Nat.min_eq_left hd]
      exact (mem_reachIn d v).mpr ⟨d, Nat.le_refl d, hpath⟩
    · rw [Nat.min_eq_right (Nat.le_of_lt hd)]
      exact reachable_mem_reachN hpath
  obtain ⟨d2, hd2, hd2le⟩ := firstIdx_complete
    (p := fun k => decide (v ∈ reachIn edges r k)) ((nodeFin edges r).card + 1) 0
    (min d ((nodeFin edges r).card)) (decide_eq_true hN) (Nat.zero_le _)
    (by have := Nat.min_le_right d ((nodeFin edges r).card); omega)
  have hd2b : bfsDist edges r v = some d2 := hd2
  have hshort := bfsDist_some_shortest hd2b
  have hd2d : d ≤ d2 := by
    by_contra hc
    push_neg at hc
    exact absurd hshort.1 (by rw [hmin d2 hc]; simp)
  have hdd2 : d2 ≤ d := Nat.le_trans hd2le (Nat.min_le_left _ _)
  rw [hd2b, Nat.le_antisymm hd2d hdd2]

/-- The body of the per-root depth update loop. -/
def depthStep (edges : List (ℕ × ℕ)) (n : ℕ) (acc r : ℕ) : ℕ :=
  match bfsDist edges r n with
  | some d => max acc d
  | none => acc

lemma hierarchy_depth_eq_fold (edges : List (ℕ × ℕ)) (n : ℕ) :
    hierarchy_depth edges n = (rootsOf edges).foldl (depthStep edges n) 0 := rfl

lemma depth_fold_le (edges : List (ℕ × ℕ)) (n : ℕ) :
    ∀ (l : List ℕ) (acc : ℕ), acc ≤ l.foldl (depthStep edges n) acc := by
  intro l
  induction l with
  | nil => intro acc; exact Nat.le_refl acc
  | cons r l ih =>
    intro acc
    refine Nat.le_trans ?_ (ih (depthStep edges n acc r))
    unfold depthStep
    cases bfsDist edges r n
    · exact Nat.le_refl acc
    · exact Nat.le_max_left _ _

lemma depth_fold_ge (edges : List (ℕ × ℕ)) (n : ℕ) :
    ∀ (l : List ℕ) (acc r : ℕ), r ∈ l → ∀ d, bfsDist edges r n = some d →
      d ≤ l.foldl (depthStep edges n) acc := by
  intro l
  induction l with
  | nil => intro acc r hr; cases hr
  | cons r0 l ih =>
    intro acc r hr d hd
    rcases List.mem_cons.mp hr with hr | hr
    · subst hr
      refine Nat.le_trans ?_ (depth_fold_le edges n l (depthStep edges n acc r))
      have hstep : depthStep edges n acc r = max acc d := by
        unfold depthStep
        rw [hd]
      rw [hstep]
      exact Nat.le_max_right _ _
    · exact ih (depthStep edges n acc r0) r hr d hd

lemma depth_fold_cases (edges : List (ℕ × ℕ)) (n : ℕ) :
    ∀ (l : List ℕ) (acc : ℕ), l.foldl (depthStep edges n) acc = acc
      ∨ ∃ r ∈ l, bfsDist edges r n = some (l.foldl (depthStep edges n) acc) := by
  intro l
  induction l with
  | nil => intro acc; exact Or.inl rfl
  | cons r0 l ih =>
    intro acc
    rcases ih (depthStep edges n acc r0) with h | ⟨r, hr, hd⟩
    · rw [List.foldl_cons, h]
      cases hb : bfsDist edges r0 n with
      | none =>
        have hstep : depthStep edges n acc r0 = acc := by
          unfold depthStep
          rw [hb]
        rw [hstep]
        exact Or.inl rfl
      | some d =>
        have hstep : depthStep edges n acc r0 = max acc d := by
          unfold depthStep
          rw [hb]
        rcases Nat.le_total d acc with hda | hda
        · rw [hstep, Nat.max_eq_left hda]
          exact Or.inl rfl
        · rw [hstep, Nat.max_eq_right hda]
          exact Or.inr ⟨r0, List.mem_cons_self r0 l, hb⟩
    · rw [List.foldl_cons]
      exact Or.inr ⟨r, List.mem_cons_of_mem r0 hr, hd⟩

end GraphMetrics

/-- Diamond graph used to refute the longest-path reading of C1: edges
0→1, 1→2, 0→2; node 0 is the only root, the longest root-to-2 path has
length 2, but the code assigns depth 1 (maximum over roots of the
breadth-first shortest-path distance). -/
def graphMetricsDemoEdges : List (ℕ × ℕ) := [(0, 1), (1, 2), (0, 2)]

/-- C1 counterexample: in the diamond graph 0→1, 1→2, 0→2 the only root is 0,
there is a root-to-node path of length 2 ending at node 2, yet
_compute_hierarchy_metrics assigns node 2 depth 1 — so the computed depth is
not the longest root-to-node path length. -/
theorem C1_counterexample :
    GraphMetrics.rootsOf graphMetricsDemoEdges = [0]
    ∧ GraphMetrics.hasPathLen graphMetricsDemoEdges 0 2 2 = true
    ∧ GraphMetrics.hierarchy_depth graphMetricsDemoEdges 2 = 1
    ∧ (1 : ℕ) < 2 := by
  refine ⟨by decide, by decide, by decide, by decide⟩

/-- C1 amended: for every edge list, the depth _compute_hierarchy_metrics
assigns to a node incident to at least one edge is the maximum over all roots
of the breadth-first SHORTEST-path distance from that root (not the longest
path length): either some root attains the computed depth as its shortest-path
distance, or the node is unreachable from every root and its depth is 0; the
depth is an upper bound for every root's shortest-path distance; and
recomputing on an unchanged edge list yields the same depth. -/
theorem C1_depth_shortest_from_roots (edges : List (ℕ × ℕ)) (n : ℕ)
    (hn : n ∈ GraphMetrics.nodesOf edges) :
    ((∃ r ∈ GraphMetrics.rootsOf edges,
        GraphMetrics.IsShortestDist edges r n (GraphMetrics.hierarchy_depth edges n))
      ∨ (GraphMetrics.hierarchy_depth edges n = 0
          ∧ ∀ r ∈ GraphMetrics.rootsOf edges, ∀ k,
              GraphMetrics.hasPathLen edges r n k = false))
    ∧ (∀ r ∈ GraphMetrics.rootsOf edges, ∀ d,
        GraphMetrics.IsShortestDist edges r n d → d ≤ GraphMetrics.hierarchy_depth edges n)
    ∧ (∀ edges2, edges2 = edges →
        GraphMetrics.hierarchy_depth edges2 n = GraphMetrics.hierarchy_depth edges n) := by
  refine ⟨?_, ?_, ?_⟩
  · rcases GraphMetrics.depth_fold_cases edges n (GraphMetrics.rootsOf edges) 0 with h0 | hw
    · rw [GraphMetrics.hierarchy_depth_eq_fold, h0]
      by_cases hreach : ∃ r ∈ GraphMetrics.rootsOf edges, ∃ k,
          GraphMetrics.hasPathLen edges r n k = true
      · obtain ⟨r, hr, k, hk⟩ := hreach
        cases hb : GraphMetrics.bfsDist edges r n with
        | none => exact absurd hk (by rw [GraphMetrics.bfsDist_none_unreachable hb k]; simp)
        | some d =>
          have hdle : d ≤ (GraphMetrics.rootsOf edges).foldl
              (GraphMetrics.depthStep edges n) 0 :=
            GraphMetrics.depth_fold_ge edges n _ 0 r hr d hb
          rw [h0] at hdle
          have hd0 : d = 0 := Nat.le_zero.mp hdle
          subst hd0
          exact Or.inl ⟨r, hr, GraphMetrics.bfsDist_some_shortest hb⟩
      · push_neg at hreach
        refine Or.inr ⟨rfl, fun r hr k => ?_⟩
        cases hk : GraphMetrics.hasPathLen edges r n k
        · rfl
        · exact absurd hk (hreach r hr k)
    · obtain ⟨r, hr, hd⟩ := hw
      exact Or.inl ⟨r, hr, GraphMetrics.bfsDist_some_shortest hd⟩
  · intro r hr d hsd
    exact GraphMetrics.depth_fold_ge edges n _ 0 r hr d (GraphMetrics.shortest_bfsDist hsd)
  · intro edges2 he
    rw [he]

/-- C1 witness: the amended depth theorem instantiated on the diamond graph at
node 2. -/
theorem C1_depth_shortest_witness :
    2 ∈ GraphMetrics.nodesOf graphMetricsDemoEdges
    ∧ (((∃ r ∈ GraphMetrics.rootsOf graphMetricsDemoEdges,
          GraphMetrics.IsShortestDist graphMetricsDemoEdges r 2
            (GraphMetrics.hierarchy_depth graphMetricsDemoEdges 2))
        ∨ (GraphMetrics.hierarchy_depth graphMetricsDemoEdges 2 = 0
            ∧ ∀ r ∈ GraphMetrics.rootsOf graphMetricsDemoEdges, ∀ k,
                GraphMetrics.hasPathLen graphMetricsDemoEdges r 2 k = false))
      ∧ (∀ r ∈ GraphMetrics.rootsOf graphMetricsDemoEdges, ∀ d,
          GraphMetrics.IsShortestDist graphMetricsDemoEdges r 2 d →
            d ≤ GraphMetrics.hierarchy_depth graphMetricsDemoEdges 2)
      ∧ (∀ edges2, edges2 = graphMetricsDemoEdges →
          GraphMetrics.hierarchy_depth edges2 2
            = GraphMetrics.hierarchy_depth graphMetricsDemoEdges 2)) :=
  ⟨by decide, C1_depth_shortest_from_roots graphMetricsDemoEdges 2 (by decide)⟩

/-- C8 counterexample: with the edge (1, 2) listed twice, the persisted
child_count of node 1 is 2 although node 1 has a single distinct child. -/
theorem C8_counterexample :
    GraphMetrics.child_count [(1, 2), (1, 2)] 1 = 2
    ∧ GraphMetrics.distinct_child_count [(1, 2), (1, 2)] 1 = 1
    ∧ (2 : ℕ) ≠ 1 := by
  refine ⟨by decide, by decide, by decide⟩

/-- C8 amended: child_count counts the (n, x) entries of the fetched edge list
with multiplicity; when the edge list contains no duplicate pairs it equals
the number of distinct children of n. -/
theorem C8_child_count_nodup (edges : List (ℕ × ℕ)) (p : ℕ) (h : edges.Nodup) :
    GraphMetrics.child_count edges p = GraphMetrics.distinct_child_count edges p := by
  unfold GraphMetrics.child_count GraphMetrics.distinct_child_count
  have hfil : (edges.filter (fun e => e.1 = p)).Nodup := List.Nodup.filter _ h
  have hmap : ((edges.filter (fun e => e.1 = p)).map (fun e => e.2)).Nodup := by
    refine List.Nodup.map_on ?_ hfil
    intro x hx y hy hxy
    have hx1 : x.1 = p := by simpa using (List.mem_filter.mp hx).2
    have hy1 : y.1 = p := by simpa using (List.mem_filter.mp hy).2
    exact Prod.ext (hx1.trans hy1.symm) hxy
  rw [GraphMetrics.child_ids, List.dedup_eq_self.mpr hmap]

/-- C8 witness: a duplicate-free edge list on which the two counts agree. -/
theorem C8_child_count_witness :
    ([(1, 2), (1, 3), (2, 3)] : List (ℕ × ℕ)).Nodup
    ∧ GraphMetrics.child_count [(1, 2), (1, 3), (2, 3)] 1
        = GraphMetrics.distinct_child_count [(1, 2), (1, 3), (2, 3)] 1 :=
  ⟨by decide, C8_child_count_nodup [(1, 2), (1, 3), (2, 3)] 1 (by decide)⟩

namespace Retriever

/-- A chunk-level hit of ZZZ_embedding/retriever.py; only the identity and the
mutable score matter for the fusion claims. -/
structure RetrievalResult where
  chunkId : ℕ
  score : ℚ
deriving DecidableEq

/-- Python-dict assignment on an insertion-ordered association list: an
existing key keeps its position and gets the new value, a new key is appended. -/
def setScore : List (ℕ × ℚ) → ℕ → ℚ → List (ℕ × ℚ)
  | [], k, v => [(k, v)]
  | (k2, v2) :: m, k, v => if k2 = k then (k, v) :: m else (k2, v2) :: setScore m k v

/-- Dict lookup on the association list. -/
def lookupScore (m : List (ℕ × ℚ)) (k : ℕ) : Option ℚ :=
  (m.find? (fun p => p.1 = k)).map (fun p => p.2)

/-- Phase one of ConfluenceRetriever._combine_results: every vector hit is
entered into the result map with its score boosted by 1.2. -/
def combinePhase1 (vector_results : List RetrievalResult) : List (ℕ × ℚ) :=
  vector_results.foldl (fun m r => setScore m r.chunkId (r.score * (6/5))) []

/-- Phase two of _combine_results: a text hit whose chunkId is already present
replaces the stored score s by s*0.6 + score*0.4, otherwise it is inserted
as is. -/
def combinePhase2 (m : List (ℕ × ℚ)) (text_results : List RetrievalResult) : List (ℕ × ℚ) :=
  text_results.foldl
    (fun m r => match lookupScore m r.chunkId with
      | some s => setScore m r.chunkId (s * (3/5) + r.score * (2/5))
      | none => setScore m r.chunkId r.score) m

/-- Stable insertion into a list sorted by descending score. -/
def insertDesc (r : RetrievalResult) : List RetrievalResult → List RetrievalResult
  | [] => [r]
  | x :: xs => if x.score < r.score then r :: x :: xs else x :: insertDesc r xs

/-- Sort hits by descending score (result.sort with reverse=True). -/
def sortDesc (l : List RetrievalResult) : List RetrievalResult :=
  l.foldr insertDesc []

/-- Embedding of ConfluenceRetriever._combine_results. -/
def combine_results (vector_results text_results : List RetrievalResult)
    (top_k : ℕ) : List RetrievalResult :=
  (sortDesc ((combinePhase2 (combinePhase1 vector_results) text_results).map
    (fun p => ⟨p.1, p.2⟩))).take top_k

lemma lookupScore_setScore_self (m : List (ℕ × ℚ)) (k : ℕ) (v : ℚ) :
    lookupScore (setScore m k v) k = some v := by
  induction m with
  | nil => simp [setScore, lookupScore]
  | cons p m ih =>
    by_cases hp : p.1 = k
    · rw [show setScore (p :: m) k v
            = if p.1 = k then (k, v) :: m else p :: setScore m k v from rfl, if_pos hp]
      simp [lookupScore]
    · rw [show setScore (p :: m) k v
            = if p.1 = k then (k, v) :: m else p :: setScore m k v from rfl, if_neg hp]
      rw [lookupScore, List.find?_cons_of_neg _ (by simpa using hp)]
      exact ih

lemma lookupScore_setScore_other (m : List (ℕ × ℚ)) {k i : ℕ} (v : ℚ) (h : k ≠ i) :
    lookupScore (setScore m k v) i = lookupScore m i := by
  induction m with
  | nil => simp [setScore, lookupScore, h]
  | cons p m ih =>
    by_cases hp : p.1 = k
    · rw [show setScore (p :: m) k v
            = if p.1 = k then (k, v) :: m else p :: setScore m k v from rfl, if_pos hp]
      rw [lookupScore, lookupScore, List.find?_cons_of_neg _ (by simpa using h),
        List.find?_cons_of_neg _ (by rw [hp]; simpa using h)]
    · rw [show setScore (p :: m) k v
            = if p.1 = k then (k, v) :: m else p :: setScore m k v from rfl, if_neg hp]
      by_cases hpi : p.1 = i
      · rw [lookupScore, lookupScore, List.find?_cons_of_pos _ (by simpa using hpi),
          List.find?_cons_of_pos _ (by simpa using hpi)]
      · rw [lookupScore, lookupScore, List.find?_cons_of_neg _ (by simpa using hpi),
          List.find?_cons_of_neg _ (by simpa using hpi)]
        exact ih

lemma combinePhase1_lookup_absent {i : ℕ} :
    ∀ (v : List RetrievalResult) (m : List (ℕ × ℚ)),
      v.filter (fun r => r.chunkId = i) = [] →
      lookupScore (v.foldl (fun m r => setScore m r.chunkId (r.score * (6/5))) m) i
        = lookupScore m i := by
  intro v
  induction v with
  | nil => intro m _; rfl
  | cons r v ih =>
    intro m hf
    by_cases hr : r.chunkId = i
    · rw [List.filter_cons_of_pos (by simpa using hr)] at hf
      cases hf
    · rw [List.filter_cons_of_neg (by simpa using hr)] at hf
      rw [List.foldl_cons, ih (setScore m r.chunkId (r.score * (6/5))) hf,
        lookupScore_setScore_other m _ hr]

lemma combinePhase1_lookup {i : ℕ} {a : ℚ} :
    ∀ (v : List RetrievalResult) (m : List (ℕ × ℚ)),
      v.filter (fun r => r.chunkId = i) = [⟨i, a⟩] →
      lookupScore (v.foldl (fun m r => setScore m r.chunkId (r.score * (6/5))) m) i
        = some (a * (6/5)) := by
  intro v
  induction v with
  | nil => intro m hf; cases hf
  | cons r v ih =>
    intro m hf
    by_cases hr : r.chunkId = i
    · rw [List.filter_cons_of_pos (by simpa using hr)] at hf
      have hfr : r = ⟨i, a⟩ := (List.cons_eq_cons.mp hf).1
      have hfv : v.filter (fun r => r.chunkId = i) = [] := (List.cons_eq_cons.mp hf).2
      subst hfr
      rw [List.foldl_cons,
        combinePhase1_lookup_absent v (setScore m i (a * (6/5))) hfv,
        lookupScore_setScore_self]
    · rw [List.filter_cons_of_neg (by simpa using hr)] at hf
      rw [List.foldl_cons]
      exact ih (setScore m r.chunkId (r.score * (6/5))) hf

lemma combinePhase2_lookup_absent {i : ℕ} :
    ∀ (t : List RetrievalResult) (m : List (ℕ × ℚ)),
      t.filter (fun r => r.chunkId = i) = [] →
      lookupScore (combinePhase2 m t) i = lookupScore m i := by
  intro t
  induction t with
  | nil => intro m _; rfl
  | cons r t ih =>
    intro m hf
    by_cases hr : r.chunkId = i
    · rw [List.filter_cons_of_pos (by simpa using hr)] at hf
      cases hf
    · rw [List.filter_cons_of_neg (by simpa using hr)] at hf
      rw [combinePhase2, List.foldl_cons]
      cases hl : lookupScore m r.chunkId with
      | some s =>
        exact (ih (setScore m r.chunkId (s * (3/5) + r.score * (2/5))) hf).trans
          (lookupScore_setScore_other m _ hr)
      | none =>
        exact (ih (setScore m r.chunkId r.score) hf).trans
          (lookupScore_setScore_other m _ hr)

lemma combinePhase2_lookup {i : ℕ} {b s0 : ℚ} :
    ∀ (t : List RetrievalResult) (m : List (ℕ × ℚ)),
      t.filter (fun r => r.chunkId = i) = [⟨i, b⟩] →
      lookupScore m i = some s0 →
      lookupScore (combinePhase2 m t) i = some (s0 * (3/5) + b * (2/5)) := by
  intro t
  induction t with
  | nil => intro m hf; cases hf
  | cons r t ih =>
    intro m hf hm
    by_cases hr : r.chunkId = i
    · rw [List.filter_cons_of_pos (by simpa using hr)] at hf
      have hfr : r = ⟨i, b⟩ := (List.cons_eq_cons.mp hf).1
      have hfv : t.filter (fun r => r.chunkId = i) = [] := (List.cons_eq_cons.mp hf).2
      subst hfr
      rw [combinePhase2, List.foldl_cons]
      simp only
      rw [hm]
      have h1 := combinePhase2_lookup_absent t
        (setScore m i (s0 * (3/5) + b * (2/5))) hfv
      rw [lookupScore_setScore_self] at h1
      exact h1
    · rw [List.filter_cons_of_neg (by simpa using hr)] at hf
      rw [combinePhase2, List.foldl_cons]
      cases hl : lookupScore m r.chunkId with
      | some s =>
        exact ih (setScore m r.chunkId (s * (3/5) + r.score * (2/5))) hf
          (by rw [lookupScore_setScore_other m _ hr]; exact hm)
      | none =>
        exact ih (setScore m r.chunkId r.score) hf
          (by rw [lookupScore_setScore_other m _ hr]; exact hm)

/-- A page-level context of ZZZ_embedding/retriever.py with the fields the
selection claims mention. -/
structure PageContext where
  pageId : ℕ
  title : String
  confidence : ℚ
deriving DecidableEq

/-- Embedding of ConfluenceRetriever._select_best_context, including its
effect on the contexts list: the loop returns the first context whose
confidence meets the threshold and leaves the list untouched; if none does,
the first context has its confidence overwritten in place to
min(confidence, 0.5) and is returned. -/
def select_best_context (contexts : List PageContext) (threshold : ℚ) :
    Option PageContext × List PageContext :=
  match contexts with
  | [] => (none, [])
  | c0 :: rest =>
    match (c0 :: rest).find? (fun c => decide (threshold ≤ c.confidence)) with
    | some c => (some c, c0 :: rest)
    | none =>
      let best : PageContext := { c0 with confidence := min c0.confidence (1/2) }
      (some best, best :: rest)

lemma select_best_context_of_found {thr : ℚ} {c0 c : PageContext}
    {rest : List PageContext}
    (h : (c0 :: rest).find? (fun c => decide (thr ≤ c.confidence)) = some c) :
    select_best_context (c0 :: rest) thr = (some c, c0 :: rest) := by
  rw [show select_best_context (c0 :: rest) thr
        = (match (c0 :: rest).find? (fun c => decide (thr ≤ c.confidence)) with
          | some c => (some c, c0 :: rest)
          | none =>
            let best : PageContext := { c0 with confidence := min c0.confidence (1/2) }
            (some best, best :: rest)) from rfl, h]

lemma select_best_context_of_none {thr : ℚ} {c0 : PageContext}
    {rest : List PageContext}
    (h : (c0 :: rest).find? (fun c => decide (thr ≤ c.confidence)) = none) :
    select_best_context (c0 :: rest) thr
      = (some { c0 with confidence := min c0.confidence (1/2) },
         { c0 with confidence := min c0.confidence (1/2) } :: rest) := by
  rw [show select_best_context (c0 :: rest) thr
        = (match (c0 :: rest).find? (fun c => decide (thr ≤ c.confidence)) with
          | some c => (some c, c0 :: rest)
          | none =>
            let best : PageContext := { c0 with confidence := min c0.confidence (1/2) }
            (some best, best :: rest)) from rfl, h]

end Retriever

/-- Concrete input for the C2 counterexample: the same chunk appears in the
vector phase and in the text phase, both with score 1/2. -/
def retrieverDemoHit : Retriever.RetrievalResult := ⟨1, 1/2⟩

/-- C2 counterexample: a hit with vector score a = 1/2 and text score b = 1/2
is fused by _combine_results to 0.6·(1.2·a) + 0.4·b = 14/25 = 0.56, which is
not strictly between min(a,b) = 1/2 and max(a,b) = 1/2 (indeed it exceeds the
maximum, because the vector score is boosted by 1.2 before averaging). -/
theorem C2_counterexample :
    Retriever.combine_results [retrieverDemoHit] [retrieverDemoHit] 5
      = [⟨1, 14/25⟩]
    ∧ ¬ (min ((1 : ℚ)/2) (1/2) < 14/25 ∧ (14/25 : ℚ) < max ((1 : ℚ)/2) (1/2)) := by
  constructor
  · norm_num [Retriever.combine_results, Retriever.combinePhase1, Retriever.combinePhase2,
      Retriever.setScore, Retriever.lookupScore, Retriever.sortDesc, Retriever.insertDesc,
      retrieverDemoHit, List.find?]
  · norm_num

/-- C2 amended: a hit present once in each phase with vector score a and text
score b is fused by _combine_results to 0.6·(1.2·a) + 0.4·b — a weighted
average of the BOOSTED vector score 1.2·a and b, which therefore lies between
min(1.2·a, b) and max(1.2·a, b) (not between min(a,b) and max(a,b)); the
orchestrator dedup path performs no averaging at all. -/
theorem C2_fused_score_bounds (v t : List Retriever.RetrievalResult) (i : ℕ) (a b : ℚ)
    (hv : v.filter (fun r => r.chunkId = i) = [⟨i, a⟩])
    (ht : t.filter (fun r => r.chunkId = i) = [⟨i, b⟩]) :
    Retriever.lookupScore (Retriever.combinePhase2 (Retriever.combinePhase1 v) t) i
      = some (a * (6/5) * (3/5) + b * (2/5))
    ∧ min (a * (6/5)) b ≤ a * (6/5) * (3/5) + b * (2/5)
    ∧ a * (6/5) * (3/5) + b * (2/5) ≤ max (a * (6/5)) b := by
  refine ⟨?_, ?_, ?_⟩
  · exact Retriever.combinePhase2_lookup t (Retriever.combinePhase1 v) ht
      (Retriever.combinePhase1_lookup v [] hv)
  · rcases le_total (a * (6/5)) b with h | h
    · rw [min_eq_left h]
      nlinarith
    · rw [min_eq_right h]
      nlinarith
  · rcases le_total (a * (6/5)) b with h | h
    · rw [max_eq_right h]
      nlinarith
    · rw [max_eq_left h]
      nlinarith

/-- C2 witness: the amended fusion bound at vector score 1/2 and text
score 1/4. -/
theorem C2_fused_score_witness :
    ([retrieverDemoHit].filter (fun r => r.chunkId = 1)
        = [(⟨1, 1/2⟩ : Retriever.RetrievalResult)])
    ∧ ([(⟨1, 1/4⟩ : Retriever.RetrievalResult)].filter (fun r => r.chunkId = 1)
        = [(⟨1, 1/4⟩ : Retriever.RetrievalResult)])
    ∧ (Retriever.lookupScore
        (Retriever.combinePhase2 (Retriever.combinePhase1 [retrieverDemoHit])
          [(⟨1, 1/4⟩ : Retriever.RetrievalResult)]) 1
        = some ((1/2) * (6/5) * (3/5) + (1/4) * (2/5))
      ∧ min ((1/2) * (6/5)) (1/4) ≤ (1/2 : ℚ) * (6/5) * (3/5) + (1/4) * (2/5)
      ∧ (1/2 : ℚ) * (6/5) * (3/5) + (1/4) * (2/5) ≤ max ((1/2) * (6/5)) (1/4)) :=
  ⟨by simp [retrieverDemoHit], by simp,
    C2_fused_score_bounds [retrieverDemoHit] [⟨1, 1/4⟩] 1 (1/2) (1/4)
      (by simp [retrieverDemoHit]) (by simp)⟩

/-- C5 counterexample: on the unsorted non-empty list
[conf 4/5, conf 9/10] with threshold 3/4, _select_best_context returns the
FIRST context that meets the threshold (confidence 4/5), not the
highest-confidence one (confidence 9/10), which also meets the threshold. -/
theorem C5_counterexample :
    Retriever.select_best_context [⟨1, "a", 4/5⟩, ⟨2, "b", 9/10⟩] (3/4)
      = (some ⟨1, "a", 4/5⟩, [⟨1, "a", 4/5⟩, ⟨2, "b", 9/10⟩])
    ∧ ((4 : ℚ)/5 < 9/10 ∧ (3 : ℚ)/4 ≤ 9/10) := by
  have hfind : ([⟨1, "a", 4/5⟩, ⟨2, "b", 9/10⟩] : List Retriever.PageContext).find?
      (fun c => decide ((3 : ℚ)/4 ≤ c.confidence)) = some ⟨1, "a", 4/5⟩ :=
    List.find?_cons_of_pos _ (by norm_num)
  exact ⟨Retriever.select_best_context_of_found hfind, by norm_num, by norm_num⟩

/-- C5 amended: on a non-empty contexts list sorted by non-increasing
confidence — the shape _build_page_contexts always hands to
_select_best_context — the function returns the highest-confidence context
meeting the threshold when one exists (leaving the list unchanged), otherwise
the highest-confidence context with its confidence capped at min(·, 0.5);
in the fallback case the reported confidence is strictly below the threshold,
so a reported confidence at or above the threshold implies some context met
the threshold before selection. -/
theorem C5_select_best_sorted (ctxs : List Retriever.PageContext) (thr : ℚ)
    (hne : ctxs ≠ [])
    (hs : ctxs.Pairwise (fun x y => y.confidence ≤ x.confidence)) :
    ∃ c l2, Retriever.select_best_context ctxs thr = (some c, l2)
    ∧ ((∃ x ∈ ctxs, thr ≤ x.confidence) →
        c ∈ ctxs ∧ thr ≤ c.confidence
          ∧ (∀ x ∈ ctxs, x.confidence ≤ c.confidence) ∧ l2 = ctxs)
    ∧ ((∀ x ∈ ctxs, x.confidence < thr) →
        (∃ c0 rest, ctxs = c0 :: rest
          ∧ c = { c0 with confidence := min c0.confidence (1/2) }
          ∧ l2 = c :: rest
          ∧ (∀ x ∈ ctxs, x.confidence ≤ c0.confidence))
        ∧ c.confidence < thr) := by
  match ctxs, hne with
  | c0 :: rest, _ =>
    have hs0 : ∀ x ∈ rest, x.confidence ≤ c0.confidence := (List.pairwise_cons.mp hs).1
    have hmax : ∀ x ∈ c0 :: rest, x.confidence ≤ c0.confidence := by
      intro x hx
      rcases List.mem_cons.mp hx with hx | hx
      · rw [hx]
      · exact hs0 x hx
    by_cases hmeets : thr ≤ c0.confidence
    · have hfind : (c0 :: rest).find? (fun c => decide (thr ≤ c.confidence)) = some c0 :=
        List.find?_cons_of_pos _ (by simpa using hmeets)
      refine ⟨c0, c0 :: rest, Retriever.select_best_context_of_found hfind, ?_, ?_⟩
      · intro _
        exact ⟨List.mem_cons_self c0 rest, hmeets, hmax, rfl⟩
      · intro hall
        exact absurd hmeets (not_le.mpr (hall c0 (List.mem_cons_self c0 rest)))
    · have hall0 : ∀ x ∈ c0 :: rest, x.confidence < thr := by
        intro x hx
        rcases List.mem_cons.mp hx with hx | hx
        · rw [hx]
          exact not_le.mp hmeets
        · exact lt_of_le_of_lt (hs0 x hx) (not_le.mp hmeets)
      have hfind : (c0 :: rest).find? (fun c => decide (thr ≤ c.confidence)) = none :=
        List.find?_eq_none.mpr
          (fun x hx => by simpa using not_le.mpr (hall0 x hx))
      refine ⟨{ c0 with confidence := min c0.confidence (1/2) },
        { c0 with confidence := min c0.confidence (1/2) } :: rest,
        Retriever.select_best_context_of_none hfind, ?_, ?_⟩
      · rintro ⟨x, hx, hthr⟩
        exact absurd hthr (not_le.mpr (hall0 x hx))
      · intro hall
        refine ⟨⟨c0, rest, rfl, rfl, rfl, hmax⟩, ?_⟩
        exact lt_of_le_of_lt (min_le_left c0.confidence (1/2))
          (hall c0 (List.mem_cons_self c0 rest))

/-- C5 witness: the amended selection theorem instantiated on the sorted
two-context list [conf 9/10, conf 4/5] with threshold 3/4. -/
theorem C5_select_best_witness :
    (([⟨1, "a", 9/10⟩, ⟨2, "b", 4/5⟩] : List Retriever.PageContext) ≠ [])
    ∧ ([⟨1, "a", 9/10⟩, ⟨2, "b", 4/5⟩] : List Retriever.PageContext).Pairwise
        (fun x y => y.confidence ≤ x.confidence)
    ∧ (∃ c l2, Retriever.select_best_context [⟨1, "a", 9/10⟩, ⟨2, "b", 4/5⟩] (3/4)
        = (some c, l2)
      ∧ ((∃ x ∈ ([⟨1, "a", 9/10⟩, ⟨2, "b", 4/5⟩] : List Retriever.PageContext),
            (3 : ℚ)/4 ≤ x.confidence) →
          c ∈ ([⟨1, "a", 9/10⟩, ⟨2, "b", 4/5⟩] : List Retriever.PageContext)
            ∧ (3 : ℚ)/4 ≤ c.confidence
            ∧ (∀ x ∈ ([⟨1, "a", 9/10⟩, ⟨2, "b", 4/5⟩] : List Retriever.PageContext),
                x.confidence ≤ c.confidence)
            ∧ l2 = [⟨1, "a", 9/10⟩, ⟨2, "b", 4/5⟩])
      ∧ ((∀ x ∈ ([⟨1, "a", 9/10⟩, ⟨2, "b", 4/5⟩] : List Retriever.PageContext),
            x.confidence < (3 : ℚ)/4) →
          (∃ c0 rest, ([⟨1, "a", 9/10⟩, ⟨2, "b", 4/5⟩] : List Retriever.PageContext)
              = c0 :: rest
            ∧ c = { c0 with confidence := min c0.confidence (1/2) }
            ∧ l2 = c :: rest
            ∧ (∀ x ∈ ([⟨1, "a", 9/10⟩, ⟨2, "b", 4/5⟩] : List Retriever.PageContext),
                x.confidence ≤ c0.confidence))
          ∧ c.confidence < (3 : ℚ)/4)) :=
  ⟨by simp, by norm_num,
    C5_select_best_sorted [⟨1, "a", 9/10⟩, ⟨2, "b", 4/5⟩] (3/4) (by simp) (by norm_num)⟩

/-- C10: when no context meets the threshold, _select_best_context returns the
first element of the list with its confidence overwritten in place to
min(original confidence, 0.5); pageId and title of that element and every
other context in the list are unchanged, and the returned list is the input
list with exactly that head mutation. -/
theorem C10_fallback_mutation (c0 : Retriever.PageContext)
    (rest : List Retriever.PageContext) (thr : ℚ)
    (h : ∀ x ∈ c0 :: rest, x.confidence < thr) :
    Retriever.select_best_context (c0 :: rest) thr
      = (some ⟨c0.pageId, c0.title, min c0.confidence (1/2)⟩,
         ⟨c0.pageId, c0.title, min c0.confidence (1/2)⟩ :: rest) := by
  have hfind : (c0 :: rest).find? (fun c => decide (thr ≤ c.confidence)) = none :=
    List.find?_eq_none.mpr (fun x hx => by simpa using not_le.mpr (h x hx))
  exact Retriever.select_best_context_of_none hfind

/-- C10 witness: the in-place fallback mutation at a concrete two-context
list below the threshold 1/2. -/
theorem C10_fallback_mutation_witness :
    (∀ x ∈ ([⟨1, "t", 2/5⟩, ⟨2, "u", 1/5⟩] : List Retriever.PageContext),
        x.confidence < (1 : ℚ)/2)
    ∧ Retriever.select_best_context [⟨1, "t", 2/5⟩, ⟨2, "u", 1/5⟩] ((1 : ℚ)/2)
      = (some ⟨(⟨1, "t", 2/5⟩ : Retriever.PageContext).pageId,
              (⟨1, "t", 2/5⟩ : Retriever.PageContext).title,
              min (⟨1, "t", 2/5⟩ : Retriever.PageContext).confidence (1/2)⟩,
         ⟨(⟨1, "t", 2/5⟩ : Retriever.PageContext).pageId,
          (⟨1, "t", 2/5⟩ : Retriever.PageContext).title,
          min (⟨1, "t", 2/5⟩ : Retriever.PageContext).confidence (1/2)⟩
           :: [⟨2, "u", 1/5⟩]) :=
  ⟨by norm_num, C10_fallback_mutation ⟨1, "t", 2/5⟩ [⟨2, "u", 1/5⟩] ((1 : ℚ)/2)
    (by norm_num)⟩

/-- C7: the boosted confidence produced by _calculate_enhanced_confidence equals
base × min(1.0 + 0.05·min(a,3) + 0.03·min(c,5) + 0.02·min(r,5), 1.2) clamped to
at most 1.0, where a, c, r are the ancestor / child / related-page counts; in
particular it never exceeds 1.0. -/
theorem C7_boost_formula (base : ℚ) (ancestors children related : List Enricher.PageInfo) :
    Enricher.calculate_enhanced_confidence base ancestors children related
      = min (base * min ((1 : ℚ) + (1/20) * ((min ancestors.length 3 : ℕ) : ℚ)
              + (3/100) * ((min children.length 5 : ℕ) : ℚ)
              + (1/50) * ((min related.length 5 : ℕ) : ℚ)) (6/5)) 1
    ∧ Enricher.calculate_enhanced_confidence base ancestors children related ≤ 1 := by
  constructor
  · show (let b0 : ℚ := 1
          let b1 : ℚ := if ancestors = [] then b0
            else b0 + (1/20) * (min ancestors.length 3 : ℕ)
          let b2 : ℚ := if children = [] then b1
            else b1 + (3/100) * (min children.length 5 : ℕ)
          let b3 : ℚ := if related = [] then b2
            else b2 + (1/50) * (min related.length 5 : ℕ)
          let boost_factor := min b3 (6/5)
          min (base * boost_factor) 1) = _
    simp only [Enricher.boost_guard_eq]
  · exact min_le_right _ _

namespace Orchestrator

/-- A search hit of confluence_qa_orchestrator.py (_convert_to_search_result);
content/title/metadata are irrelevant to the retrieval-flow claims. -/
structure SearchResult where
  id : ℕ
  pageId : ℕ
  score : ℚ
deriving DecidableEq

/-- Worker of _deduplicate_results: keep a hit when its id has not been seen. -/
def dedupGo (seen : List ℕ) : List SearchResult → List SearchResult
  | [] => []
  | d :: ds => if d.id ∈ seen then dedupGo seen ds else d :: dedupGo (d.id :: seen) ds

/-- Embedding of ConfluenceQAOrchestrator._deduplicate_results: drop duplicate
ids, preserving first-seen order. -/
def deduplicate_results (results : List SearchResult) : List SearchResult :=
  dedupGo [] results

/-- The phase inputs available to one run of progressive retrieval: the hits
each search phase would return, and the embedding the embedding service would
return (none models a failed/absent embedding). -/
structure PhaseEnv where
  keyword : List SearchResult
  embedding : Option (List ℚ)
  vector : List SearchResult
  semantic : List SearchResult
deriving DecidableEq

/-- The guard results[0].score > 0.8 (Python short-circuits, so the head is
only inspected when the list is non-empty). -/
def topScoreExceeds : List SearchResult → ℚ → Bool
  | [], _ => false
  | r :: _, q => decide (q < r.score)

/-- Phase-1 early-exit guard: len(results) >= 5 and results[0].score > 0.8. -/
def earlyExitGuard (env : PhaseEnv) : Bool :=
  decide (5 ≤ env.keyword.length) && topScoreExceeds env.keyword (4/5)

/-- Keyword results extended with the vector results exactly when an embedding
was obtained (phase 2 of _retrieve_documents_progressive). -/
def combinedKV (env : PhaseEnv) : List SearchResult :=
  match env.embedding with
  | some _ => env.keyword ++ env.vector
  | none => env.keyword

/-- What one run of progressive retrieval returns, together with which
external services were invoked past phase 1. -/
structure ProgOutcome where
  hits : List SearchResult
  usedEmbedding : Bool
  usedVector : Bool
  usedSemantic : Bool
deriving DecidableEq

/-- Embedding of ConfluenceQAOrchestrator._retrieve_documents_progressive:
phase 1 returns the first 10 keyword hits when the early-exit guard holds;
otherwise the embedding service is consulted, vector results are appended when
an embedding exists, and the raw combined length (duplicates included) decides
whether the semantic phase runs. -/
def retrieve_documents_progressive (env : PhaseEnv) : ProgOutcome :=
  let results := env.keyword
  if earlyExitGuard env then
    { hits := results.take 10, usedEmbedding := false, usedVector := false,
      usedSemantic := false }
  else
    let results2 := combinedKV env
    if 10 ≤ results2.length then
      { hits := (deduplicate_results results2).take 15, usedEmbedding := true,
        usedVector := env.embedding.isSome, usedSemantic := false }
    else
      { hits := (deduplicate_results (results2 ++ env.semantic)).take 20,
        usedEmbedding := true, usedVector := env.embedding.isSome,
        usedSemantic := true }

end Orchestrator

/-- C3: when the keyword phase returns at least 5 hits and the top hit scores
above 0.8, progressive retrieval returns the first 10 keyword hits — a prefix
of the keyword results — and neither the embedding service nor the vector or
semantic search is invoked. -/
theorem C3_early_exit (env : Orchestrator.PhaseEnv)
    (h1 : 5 ≤ env.keyword.length)
    (h2 : Orchestrator.topScoreExceeds env.keyword (4/5) = true) :
    Orchestrator.retrieve_documents_progressive env
      = { hits := env.keyword.take 10, usedEmbedding := false,
          usedVector := false, usedSemantic := false }
    ∧ ∃ t, (Orchestrator.retrieve_documents_progressive env).hits ++ t = env.keyword := by
  have hg : Orchestrator.earlyExitGuard env = true := by
    rw [Orchestrator.earlyExitGuard, h2, Bool.and_true]
    exact decide_eq_true h1
  have hmain : Orchestrator.retrieve_documents_progressive env
      = { hits := env.keyword.take 10, usedEmbedding := false,
          usedVector := false, usedSemantic := false } := by
    rw [Orchestrator.retrieve_documents_progressive]
    simp only [hg, if_true]
  refine ⟨hmain, ⟨env.keyword.drop 10, ?_⟩⟩
  rw [hmain]
  exact List.take_append_drop 10 env.keyword

/-- Concrete phase inputs for the C3 witness: five high-scoring keyword hits,
an available embedding and non-empty vector/semantic phases. -/
def orchestratorDemoEnvC3 : Orchestrator.PhaseEnv :=
  { keyword := [⟨1, 1, 9/10⟩, ⟨2, 2, 9/10⟩, ⟨3, 3, 9/10⟩, ⟨4, 4, 9/10⟩, ⟨5, 5, 9/10⟩],
    embedding := some [1],
    vector := [⟨6, 6, 1/2⟩],
    semantic := [⟨7, 7, 1/2⟩] }

/-- C3 witness: the early-exit theorem instantiated on five keyword hits with
top score 9/10. -/
theorem C3_early_exit_witness :
    5 ≤ orchestratorDemoEnvC3.keyword.length
    ∧ Orchestrator.topScoreExceeds orchestratorDemoEnvC3.keyword (4/5) = true
    ∧ (Orchestrator.retrieve_documents_progressive orchestratorDemoEnvC3
        = { hits := orchestratorDemoEnvC3.keyword.take 10, usedEmbedding := false,
            usedVector := false, usedSemantic := false }
      ∧ ∃ t, (Orchestrator.retrieve_documents_progressive orchestratorDemoEnvC3).hits ++ t
          = orchestratorDemoEnvC3.keyword) :=
  ⟨by norm_num [orchestratorDemoEnvC3],
   by norm_num [orchestratorDemoEnvC3, Orchestrator.topScoreExceeds],
   C3_early_exit orchestratorDemoEnvC3 (by norm_num [orchestratorDemoEnvC3])
     (by norm_num [orchestratorDemoEnvC3, Orchestrator.topScoreExceeds])⟩

/-- Concrete phase inputs for the C9 counterexample: 3 low-scoring keyword
hits and 7 vector hits of which 4 repeat keyword ids, so the raw combined
length is 10 but only 7 ids are distinct. -/
def orchestratorDemoEnvC9 : Orchestrator.PhaseEnv :=
  { keyword := [⟨1, 1, 3/10⟩, ⟨2, 2, 3/10⟩, ⟨3, 3, 3/10⟩],
    embedding := some [1],
    vector := [⟨1, 1, 2/5⟩, ⟨2, 2, 2/5⟩, ⟨3, 3, 2/5⟩, ⟨1, 1, 2/5⟩,
               ⟨4, 4, 2/5⟩, ⟨5, 5, 2/5⟩, ⟨6, 6, 2/5⟩],
    semantic := [⟨9, 9, 2/5⟩] }

/-- C9 counterexample: with 3 keyword hits and 7 vector hits sharing 4 ids,
the raw combined list has length 10, so the code skips the semantic phase even
though only 6 unique ids were retrieved — refuting the claim that the skip
happens iff the number of UNIQUE hits is at least 10. -/
theorem C9_counterexample :
    (Orchestrator.retrieve_documents_progressive orchestratorDemoEnvC9).usedSemantic = false
    ∧ (Orchestrator.deduplicate_results
        (orchestratorDemoEnvC9.keyword ++ orchestratorDemoEnvC9.vector)).length = 6
    ∧ (6 : ℕ) < 10 := by
  refine ⟨?_, ?_, by norm_num⟩
  · norm_num [Orchestrator.retrieve_documents_progressive, Orchestrator.earlyExitGuard,
      Orchestrator.topScoreExceeds, Orchestrator.combinedKV, orchestratorDemoEnvC9]
  · norm_num [Orchestrator.deduplicate_results, Orchestrator.dedupGo, orchestratorDemoEnvC9]

/-- C9 amended: when the phase-1 early exit is not taken, the semantic phase
is skipped iff the RAW combined keyword+vector list (duplicates included) has
length at least 10; the unique count plays no part in the decision. -/
theorem C9_semantic_skip_iff (env : Orchestrator.PhaseEnv)
    (hg : Orchestrator.earlyExitGuard env = false) :
    (Orchestrator.retrieve_documents_progressive env).usedSemantic = false
      ↔ 10 ≤ (Orchestrator.combinedKV env).length := by
  rw [Orchestrator.retrieve_documents_progressive]
  simp only [hg, Bool.false_eq_true, if_false]
  by_cases hlen : 10 ≤ (Orchestrator.combinedKV env).length
  · simp [hlen]
  · simp [hlen]

/-- C9 witness: the raw-length iff at the concrete C9 inputs. -/
theorem C9_semantic_skip_witness :
    Orchestrator.earlyExitGuard orchestratorDemoEnvC9 = false
    ∧ ((Orchestrator.retrieve_documents_progressive orchestratorDemoEnvC9).usedSemantic
          = false
        ↔ 10 ≤ (Orchestrator.combinedKV orchestratorDemoEnvC9).length) :=
  ⟨by norm_num [Orchestrator.earlyExitGuard, Orchestrator.topScoreExceeds,
      orchestratorDemoEnvC9],
   C9_semantic_skip_iff orchestratorDemoEnvC9
     (by norm_num [Orchestrator.earlyExitGuard, Orchestrator.topScoreExceeds,
        orchestratorDemoEnvC9])⟩

namespace Enricher

/-- A JSON-ish value stored in the page-data dictionary of
graph_enricher.py. -/
inductive Val
  | s (v : String)
  | n (q : ℚ)
  | b (v : Bool)
  | null
deriving DecidableEq

/-- Python-dict assignment on an insertion-ordered association list: an
existing key keeps its position and gets the new value, a new key is
appended. -/
def setKey : List (String × Val) → String → Val → List (String × Val)
  | [], k, v => [(k, v)]
  | (k2, v2) :: d, k, v => if k2 = k then (k, v) :: d else (k2, v2) :: setKey d k v

/-- Dict lookup on the association list. -/
def lookupKey (d : List (String × Val)) (k : String) : Option Val :=
  (d.find? (fun p => p.1 = k)).map (fun p => p.2)

/-- Outcome of one graph lookup helper (_get_page_ancestors and friends): the
helper catches every exception of _execute_query, which returns [] and bumps
the error counter, so a failing lookup yields the empty list plus one error. -/
def lookup_result : Except Unit (List PageInfo) → List PageInfo × ℕ
  | .ok l => (l, 0)
  | .error _ => ([], 1)

/-- The behaviours of the four independent graph lookups issued by
enrich_page_context for one call. -/
structure EnrichEnv where
  ancRes : Except Unit (List PageInfo)
  childRes : Except Unit (List PageInfo)
  sibRes : Except Unit (List PageInfo)
  relRes : Except Unit (List PageInfo)

/-- str.join with a separator, as used for the hierarchy path. -/
def joinSep (sep : String) : List String → String
  | [] => ""
  | x :: xs => xs.foldl (fun acc y => acc ++ sep ++ y) x

/-- json.dumps of a string (escaping of special characters elided). -/
def jsonString (v : String) : String := "\"" ++ v ++ "\""

/-- json.dumps of a list of strings. -/
def jsonStringList (l : List String) : String :=
  "[" ++ joinSep ", " (l.map jsonString) ++ "]"

/-- json.dumps of the id/title projection of a page record. -/
def pageBrief (p : PageInfo) : String :=
  "\x7b\"id\": " ++ jsonString p.id ++ ", \"title\": " ++ jsonString p.title ++ "\x7d"

/-- json.dumps of the graph_metadata payload: full ancestors, and children /
siblings / related pages truncated to 5 entries each. -/
def graph_metadata_json (ancestors children siblings related : List PageInfo) : String :=
  "\x7b\"ancestors\": [" ++ joinSep ", " (ancestors.map pageBrief)
    ++ "], \"children\": [" ++ joinSep ", " ((children.take 5).map pageBrief)
    ++ "], \"siblings\": [" ++ joinSep ", " ((siblings.take 5).map pageBrief)
    ++ "], \"related_pages\": [" ++ joinSep ", " ((related.take 5).map pageBrief)
    ++ "]\x7d"

/-- data.get('title') guarded by Python truthiness: only a non-empty string
title is appended to the breadcrumb. -/
def data_title (d : List (String × Val)) : List String :=
  match lookupKey d "title" with
  | some (Val.s t) => if t = "" then [] else [t]
  | _ => []

/-- data.get('confidence', 0.5); a non-numeric stored confidence (which would
make the Python multiplication raise) is not modelled. -/
def data_confidence (d : List (String × Val)) : ℚ :=
  match lookupKey d "confidence" with
  | some (Val.n q) => q
  | _ => 1/2

/-- Embedding of GraphEnricher.enrich_page_context on the success path of its
outer try block: the four lookups are issued (each failing softly to [] with
an error-counter increment), the breadcrumb and enhanced confidence are
computed, and the enriched dict is the input dict extended with the eleven
graph fields.  The returned number is the total error-counter increment. -/
def enrich_page_context (data : List (String × Val)) (env : EnrichEnv) :
    List (String × Val) × ℕ :=
  let ancestors := (lookup_result env.ancRes).1
  let children := (lookup_result env.childRes).1
  let siblings := (lookup_result env.sibRes).1
  let related := (lookup_result env.relRes).1
  let breadcrumb := ancestors.map (fun a => a.title) ++ data_title data
  let centrality := calculate_enhanced_confidence (data_confidence data)
    ancestors children related
  let d1 := setKey data "hierarchy_depth" (Val.n ancestors.length)
  let d2 := setKey d1 "hierarchy_path" (Val.s (joinSep " > " breadcrumb))
  let d3 := setKey d2 "breadcrumb" (Val.s (jsonStringList breadcrumb))
  let d4 := setKey d3 "parent_page_id"
    (match ancestors.getLast? with
      | some a => Val.s a.id
      | none => Val.null)
  let d5 := setKey d4 "parent_page_title"
    (match ancestors.getLast? with
      | some a => Val.s a.title
      | none => Val.null)
  let d6 := setKey d5 "has_children" (Val.b (decide (0 < children.length)))
  let d7 := setKey d6 "child_count" (Val.n children.length)
  let d8 := setKey d7 "sibling_count" (Val.n siblings.length)
  let d9 := setKey d8 "related_page_count" (Val.n related.length)
  let d10 := setKey d9 "graph_centrality_score" (Val.n centrality)
  let d11 := setKey d10 "graph_metadata"
    (Val.s (graph_metadata_json ancestors children siblings related))
  (d11, (lookup_result env.ancRes).2 + (lookup_result env.childRes).2
    + (lookup_result env.sibRes).2 + (lookup_result env.relRes).2)

/-- The eleven keys enrich_page_context adds or overwrites. -/
def enrichKeys : List String :=
  ["hierarchy_depth", "hierarchy_path", "breadcrumb", "parent_page_id",
   "parent_page_title", "has_children", "child_count", "sibling_count",
   "related_page_count", "graph_centrality_score", "graph_metadata"]

lemma lookupKey_setKey_self (d : List (String × Val)) (k : String) (v : Val) :
    lookupKey (setKey d k v) k = some v := by
  induction d with
  | nil => simp [setKey, lookupKey]
  | cons p d ih =>
    by_cases hp : p.1 = k
    · rw [show setKey (p :: d) k v
            = if p.1 = k then (k, v) :: d else p :: setKey d k v from rfl, if_pos hp]
      simp [lookupKey]
    · rw [show setKey (p :: d) k v
            = if p.1 = k then (k, v) :: d else p :: setKey d k v from rfl, if_neg hp]
      rw [lookupKey, List.find?_cons_of_neg _ (by simpa using hp)]
      exact ih

lemma lookupKey_setKey_other (d : List (String × Val)) {k i : String} (v : Val)
    (h : k ≠ i) : lookupKey (setKey d k v) i = lookupKey d i := by
  induction d with
  | nil => simp [setKey, lookupKey, h]
  | cons p d ih =>
    by_cases hp : p.1 = k
    · rw [show setKey (p :: d) k v
            = if p.1 = k then (k, v) :: d else p :: setKey d k v from rfl, if_pos hp]
      rw [lookupKey, lookupKey, List.find?_cons_of_neg _ (by simpa using h),
        List.find?_cons_of_neg _ (by rw [hp]; simpa using h)]
    · rw [show setKey (p :: d) k v
            = if p.1 = k then (k, v) :: d else p :: setKey d k v from rfl, if_neg hp]
      by_cases hpi : p.1 = i
      · rw [lookupKey, lookupKey, List.find?_cons_of_pos _ (by simpa using hpi),
          List.find?_cons_of_pos _ (by simpa using hpi)]
      · rw [lookupKey, lookupKey, List.find?_cons_of_neg _ (by simpa using hpi),
          List.find?_cons_of_neg _ (by simpa using hpi)]
        exact ih

end Enricher

namespace Enricher

/-- The per-call error-counter increment of enrich_page_context: one per
failing lookup. -/
def errCount (env : EnrichEnv) : ℕ :=
  (lookup_result env.ancRes).2 + (lookup_result env.childRes).2
    + (lookup_result env.sibRes).2 + (lookup_result env.relRes).2

lemma enrich_errors (data : List (String × Val)) (env : EnrichEnv) :
    (enrich_page_context data env).2 = errCount env := rfl

lemma enrich_lookup_child_count (data : List (String × Val)) (env : EnrichEnv) :
    lookupKey (enrich_page_context data env).1 "child_count"
      = some (Val.n (lookup_result env.childRes).1.length) := by
  simp only [enrich_page_context]
  rw [lookupKey_setKey_other _ _
        (show ("graph_metadata" : String) ≠ "child_count" by decide),
      lookupKey_setKey_other _ _
        (show ("graph_centrality_score" : String) ≠ "child_count" by decide),
      lookupKey_setKey_other _ _
        (show ("related_page_count" : String) ≠ "child_count" by decide),
      lookupKey_setKey_other _ _
        (show ("sibling_count" : String) ≠ "child_count" by decide),
      lookupKey_setKey_self]

lemma enrich_lookup_depth (data : List (String × Val)) (env : EnrichEnv) :
    lookupKey (enrich_page_context data env).1 "hierarchy_depth"
      = some (Val.n (lookup_result env.ancRes).1.length) := by
  simp only [enrich_page_context]
  rw [lookupKey_setKey_other _ _
        (show ("graph_metadata" : String) ≠ "hierarchy_depth" by decide),
      lookupKey_setKey_other _ _
        (show ("graph_centrality_score" : String) ≠ "hierarchy_depth" by decide),
      lookupKey_setKey_other _ _
        (show ("related_page_count" : String) ≠ "hierarchy_depth" by decide),
      lookupKey_setKey_other _ _
        (show ("sibling_count" : String) ≠ "hierarchy_depth" by decide),
      lookupKey_setKey_other _ _
        (show ("child_count" : String) ≠ "hierarchy_depth" by decide),
      lookupKey_setKey_other _ _
        (show ("has_children" : String) ≠ "hierarchy_depth" by decide),
      lookupKey_setKey_other _ _
        (show ("parent_page_title" : String) ≠ "hierarchy_depth" by decide),
      lookupKey_setKey_other _ _
        (show ("parent_page_id" : String) ≠ "hierarchy_depth" by decide),
      lookupKey_setKey_other _ _
        (show ("breadcrumb" : String) ≠ "hierarchy_depth" by decide),
      lookupKey_setKey_other _ _
        (show ("hierarchy_path" : String) ≠ "hierarchy_depth" by decide),
      lookupKey_setKey_self]

lemma enrich_frame (data : List (String × Val)) (env : EnrichEnv) (k : String)
    (hk : k ∉ enrichKeys) :
    lookupKey (enrich_page_context data env).1 k = lookupKey data k := by
  simp only [enrichKeys, List.mem_cons, List.mem_singleton, not_or] at hk
  obtain ⟨h1, h2, h3, h4, h5, h6, h7, h8, h9, h10, h11, -⟩ := hk
  simp only [enrich_page_context]
  rw [lookupKey_setKey_other _ _ (Ne.symm h11),
      lookupKey_setKey_other _ _ (Ne.symm h10),
      lookupKey_setKey_other _ _ (Ne.symm h9),
      lookupKey_setKey_other _ _ (Ne.symm h8),
      lookupKey_setKey_other _ _ (Ne.symm h7),
      lookupKey_setKey_other _ _ (Ne.symm h6),
      lookupKey_setKey_other _ _ (Ne.symm h5),
      lookupKey_setKey_other _ _ (Ne.symm h4),
      lookupKey_setKey_other _ _ (Ne.symm h3),
      lookupKey_setKey_other _ _ (Ne.symm h2),
      lookupKey_setKey_other _ _ (Ne.symm h1)]

end Enricher

/-- Concrete input for the C6 counterexample: a minimal page-data dict. -/
def enricherDemoData : List (String × Enricher.Val) :=
  [("page_id", Enricher.Val.s "p1")]

/-- All four graph lookups fail. -/
def enricherDemoEnvErr : Enricher.EnrichEnv :=
  ⟨.error (), .error (), .error (), .error ()⟩

/-- C6 counterexample: when every lookup fails, enrich_page_context increments
the error counter by 4 but does NOT return the input unchanged — the helpers
swallow the lookup errors and return empty lists, so the enriched dict still
gains the graph fields (child_count appears in the output but not in the
input). -/
theorem C6_counterexample :
    (Enricher.enrich_page_context enricherDemoData enricherDemoEnvErr).2 = 4
    ∧ Enricher.lookupKey
        (Enricher.enrich_page_context enricherDemoData enricherDemoEnvErr).1
        "child_count" = some (Enricher.Val.n 0)
    ∧ Enricher.lookupKey enricherDemoData "child_count" = none := by
  refine ⟨rfl, ?_, by simp [enricherDemoData, Enricher.lookupKey]⟩
  rw [Enricher.enrich_lookup_child_count]
  simp [enricherDemoEnvErr, Enricher.lookup_result]

/-- C6 amended: enrich never raises (it is a total function of the lookup
outcomes); each failing lookup increments the error counter by exactly one
and is replaced by an empty list, and enrich still returns the enriched dict:
the graph fields are set (hierarchy_depth and child_count reflect the —
possibly empty — lookup results, in particular depth 0 when the ancestor
lookup fails), while every key outside the eleven graph fields keeps its
value from the input dict.  The input is returned unchanged only when an
exception escapes the enrichment body itself, which the helpers prevent for
lookup errors. -/
theorem C6_fails_soft (data : List (String × Enricher.Val))
    (env : Enricher.EnrichEnv) (k : String) (hk : k ∉ Enricher.enrichKeys) :
    (Enricher.enrich_page_context data env).2 = Enricher.errCount env
    ∧ ((env.ancRes = .error () ∨ env.childRes = .error ()
        ∨ env.sibRes = .error () ∨ env.relRes = .error ()) →
        1 ≤ (Enricher.enrich_page_context data env).2)
    ∧ Enricher.lookupKey (Enricher.enrich_page_context data env).1 k
        = Enricher.lookupKey data k
    ∧ Enricher.lookupKey (Enricher.enrich_page_context data env).1 "child_count"
        = some (Enricher.Val.n (Enricher.lookup_result env.childRes).1.length)
    ∧ (env.ancRes = .error () →
        Enricher.lookupKey (Enricher.enrich_page_context data env).1 "hierarchy_depth"
          = some (Enricher.Val.n 0)) := by
  refine ⟨Enricher.enrich_errors data env, ?_, Enricher.enrich_frame data env k hk,
    Enricher.enrich_lookup_child_count data env, ?_⟩
  · intro h
    rw [Enricher.enrich_errors]
    unfold Enricher.errCount
    rcases h with h | h | h | h <;> rw [h] <;> simp [Enricher.lookup_result] <;> omega
  · intro h
    rw [Enricher.enrich_lookup_depth, h]
    simp [Enricher.lookup_result]

/-- C6 witness: the fails-soft theorem instantiated on the demo dict with all
four lookups failing, at the untouched key page_id. -/
theorem C6_fails_soft_witness :
    ("page_id" ∉ Enricher.enrichKeys)
    ∧ ((Enricher.enrich_page_context enricherDemoData enricherDemoEnvErr).2
        = Enricher.errCount enricherDemoEnvErr
      ∧ ((enricherDemoEnvErr.ancRes = .error () ∨ enricherDemoEnvErr.childRes = .error ()
          ∨ enricherDemoEnvErr.sibRes = .error () ∨ enricherDemoEnvErr.relRes = .error ()) →
          1 ≤ (Enricher.enrich_page_context enricherDemoData enricherDemoEnvErr).2)
      ∧ Enricher.lookupKey
          (Enricher.enrich_page_context enricherDemoData enricherDemoEnvErr).1 "page_id"
          = Enricher.lookupKey enricherDemoData "page_id"
      ∧ Enricher.lookupKey
          (Enricher.enrich_page_context enricherDemoData enricherDemoEnvErr).1 "child_count"
          = some (Enricher.Val.n
              (Enricher.lookup_result enricherDemoEnvErr.childRes).1.length)
      ∧ (enricherDemoEnvErr.ancRes = .error () →
          Enricher.lookupKey
            (Enricher.enrich_page_context enricherDemoData enricherDemoEnvErr).1
            "hierarchy_depth" = some (Enricher.Val.n 0))) :=
  ⟨by decide,
   C6_fails_soft enricherDemoData enricherDemoEnvErr "page_id" (by decide)⟩

namespace Orchestrator

/-- Lowercasing of the query (query.lower()). -/
def toLowerStr (s : String) : String := String.mk (s.data.map Char.toLower)

/-- Substring containment (the Python `in` operator). -/
def containsChars (needle : List Char) : List Char → Bool
  | [] => needle.isEmpty
  | c :: t => needle.isPrefixOf (c :: t) || containsChars needle t

/-- needle occurs somewhere in hay. -/
def strContains (hay needle : String) : Bool := containsChars needle.data hay.data

/-- One entry of the quick-pattern table of _check_quick_patterns. -/
structure QuickPattern where
  keyword : String
  answer : String
  confidence : ℚ
deriving DecidableEq

/-- The pattern table of _check_quick_patterns (sso at 0.95, login at 0.9). -/
def quick_patterns : List QuickPattern :=
  [⟨"sso", "To enable SSO, follow the documentation [[sso-guide-1]]", 19/20⟩,
   ⟨"login", "For login issues, check [[login-troubleshoot-1]]", 9/10⟩]

/-- Embedding of _check_quick_patterns: first pattern whose keyword occurs in
the lowercased query. -/
def check_quick_patterns (query : String) : Option QuickPattern :=
  quick_patterns.findSome?
    (fun p => if strContains (toLowerStr query) p.keyword then some p else none)

/-- _verify_pattern_response always reports confidence 0.95. -/
def verify_pattern_confidence : ℚ := 19/20

/-- The query classification produced by the analyser agent. -/
inductive Classification
  | atomic
  | needsDecomposition
  | needsClarification
deriving DecidableEq

/-- The parsed analyser output (QueryAnalysis). -/
structure QueryAnalysis where
  classification : Classification
  subquestions : List String
deriving DecidableEq

/-- The parsed verifier output. -/
structure VerifyResult where
  risk : Bool
  confidence : ℚ
deriving DecidableEq

/-- The response dict process_query hands to its caller; fields not relevant
to the claims (page trees, thinking process, timings) are elided. -/
structure QAResponse where
  status : String
  answer : String
  confidence : ℚ
deriving DecidableEq

/-- The result of processing one sub-question (gathered with
return_exceptions=True, so a failure is a value, not an exception). -/
structure SubResult where
  question : String
  documents : List SearchResult
deriving DecidableEq

/-- The behaviours of every external collaborator for one process_query call:
cache lookup, total timeout, thinking-step store writes (logRes) and reads
(stepsRes), the five LLM interactions (analyse including its json.loads,
clarify, decompose, synthesise, verify including its json.loads), the
conversation store, the search index (keyword / vector / semantic), the
embedding service, the reranker, the page-tree graph queries and the
breadcrumb graph queries. -/
structure OrchEnv where
  cached : Option QAResponse
  timedOut : Bool
  logRes : Except Unit Unit
  analyzeRes : Except Unit QueryAnalysis
  clarifyRes : Except Unit String
  saveConvRes : Except Unit Unit
  decomposeRes : Except Unit (List String)
  subqRes : List (Except Unit SubResult)
  keywordRes : Except Unit (List SearchResult)
  embedRes : Except Unit (List ℚ)
  vectorRes : Except Unit (List SearchResult)
  semanticRes : Except Unit (List SearchResult)
  rerankRes : Except Unit (List SearchResult)
  synthRes : Except Unit String
  verifyRes : Except Unit VerifyResult
  treeRes : Except Unit (List String)
  breadcrumbRes : Except Unit (List (List String))
  stepsRes : Except Unit (List String)

/-- _execute_keyword_search catches every search-index exception and returns
the empty list. -/
def execute_keyword_search (env : OrchEnv) : List SearchResult :=
  match env.keywordRes with
  | .ok l => l
  | .error _ => []

/-- _execute_vector_search catches every search-index exception. -/
def execute_vector_search (env : OrchEnv) : List SearchResult :=
  match env.vectorRes with
  | .ok l => l
  | .error _ => []

/-- _execute_semantic_search catches every exception (semantic search may be
unavailable). -/
def execute_semantic_search (env : OrchEnv) : List SearchResult :=
  match env.semanticRes with
  | .ok l => l
  | .error _ => []

/-- _get_cached_embedding catches embedding-service failures and returns
None. -/
def get_cached_embedding (env : OrchEnv) : Option (List ℚ) :=
  env.embedRes.toOption

/-- The phase inputs progressive retrieval sees under this environment. -/
def phaseEnvOf (env : OrchEnv) : PhaseEnv :=
  { keyword := execute_keyword_search env,
    embedding := get_cached_embedding env,
    vector := execute_vector_search env,
    semantic := execute_semantic_search env }

/-- Stable insertion into a list of hits sorted by descending score. -/
def insertDescSR (r : SearchResult) : List SearchResult → List SearchResult
  | [] => [r]
  | x :: xs => if x.score < r.score then r :: x :: xs else x :: insertDescSR r xs

/-- sorted(docs, key=score, reverse=True). -/
def sortDescSR (l : List SearchResult) : List SearchResult :=
  l.foldr insertDescSR []

/-- _rerank_results: empty input short-circuits; a reranker failure falls back
to score-sorted top 8. -/
def rerank_results (env : OrchEnv) (docs : List SearchResult) : List SearchResult :=
  if docs = [] then []
  else
    match env.rerankRes with
    | .ok l => l
    | .error _ => (sortDescSR docs).take 8

/-- The fallback text _handle_verification_failure builds around the answer
and the breadcrumbs of the top pages (template text elided). -/
def verification_failure_answer (answer : String)
    (breadcrumbs : List (List String)) : String :=
  "unverified: " ++ answer ++ " see: "
    ++ Enricher.joinSep "; " (breadcrumbs.map (Enricher.joinSep " > "))

/-- _handle_atomic_query: progressive retrieval (search failures already
absorbed), reranking (failure absorbed), then synthesis, verification,
page-tree building and thinking-process formatting, each of which propagates
its exceptions. -/
def handle_atomic_query (env : OrchEnv) : Except Unit QAResponse := do
  let _ ← env.logRes
  let docs := (retrieve_documents_progressive (phaseEnvOf env)).hits
  let _reranked := rerank_results env docs
  let answer ← env.synthRes
  let ver ← env.verifyRes
  let _trees ← env.treeRes
  let _steps ← env.stepsRes
  Except.ok { status := "success", answer := answer, confidence := ver.confidence }

/-- _handle_clarification: clarifier LLM call, conversation save and
thinking-process formatting all propagate exceptions. -/
def handle_clarification (env : OrchEnv) : Except Unit QAResponse := do
  let _ ← env.logRes
  let clar ← env.clarifyRes
  let _ ← env.saveConvRes
  let _steps ← env.stepsRes
  Except.ok { status := "needs_clarification", answer := clar, confidence := 0 }

/-- _handle_complex_query: decomposition (when no subquestions were supplied),
per-sub-question results gathered with return_exceptions=True (failures
filtered, never raised), synthesis, verification, page trees, the
verification-failure path with its breadcrumb graph reads, conversation save
and thinking-process formatting; all but the gathered sub-questions propagate
exceptions. -/
def handle_complex_query (env : OrchEnv) (analysis : QueryAnalysis) :
    Except Unit QAResponse := do
  let _ ← env.logRes
  let _subqs ← (match analysis.subquestions with
    | [] => env.decomposeRes
    | l => Except.ok l)
  let _valid := env.subqRes.filterMap (fun e => e.toOption)
  let answer ← env.synthRes
  let ver ← env.verifyRes
  let _trees ← env.treeRes
  let answer2 ← (if ver.risk then
      (do
        let bcs ← env.breadcrumbRes
        Except.ok (verification_failure_answer answer bcs))
    else Except.ok answer)
  let _ ← env.saveConvRes
  let _steps ← env.stepsRes
  Except.ok { status := "success", answer := answer2, confidence := ver.confidence }

/-- Classification dispatch of _process_query_balanced. -/
def analyze_and_dispatch (env : OrchEnv) : Except Unit QAResponse := do
  let analysis ← env.analyzeRes
  match analysis.classification with
  | .needsClarification => handle_clarification env
  | .needsDecomposition => handle_complex_query env analysis
  | .atomic => handle_atomic_query env

/-- The quick-pattern branch of _process_query_balanced: taken only when the
pattern confidence is strictly above 0.95, in which case the pattern response
is verified (always at confidence 0.95) and returned after formatting the
thinking process; otherwise the analysis path continues. -/
def pattern_branch (env : OrchEnv) (qp : QuickPattern) : Except Unit QAResponse :=
  if 19/20 < qp.confidence then
    if 9/10 < verify_pattern_confidence then do
      let _steps ← env.stepsRes
      Except.ok ⟨"success", qp.answer, verify_pattern_confidence⟩
    else analyze_and_dispatch env
  else analyze_and_dispatch env

/-- Embedding of _process_query_balanced: initial thinking log, quick-pattern
check, then analysis and dispatch. -/
def process_query_balanced (env : OrchEnv) (query : String) :
    Except Unit QAResponse := do
  let _ ← env.logRes
  match check_quick_patterns query with
  | some qp => pattern_branch env qp
  | none => analyze_and_dispatch env

/-- _generate_comprehensive_fallback: the partial-result branch (keyword
search succeeded with hits) and the complete fallback both format the
thinking process, and the complete-fallback formatting call sits outside any
try block, so a failing thinking-step read escapes even here; answer
templates elided. -/
def generate_comprehensive_fallback (env : OrchEnv) : Except Unit QAResponse :=
  match env.stepsRes with
  | .error e => .error e
  | .ok _ =>
    match execute_keyword_search env with
    | _ :: _ => .ok { status := "partial", answer := "partial", confidence := 3/5 }
    | [] => .ok { status := "timeout", answer := "timeout", confidence := 0 }

/-- Embedding of ConfluenceQAOrchestrator.process_query: cached responses are
returned directly; a total timeout takes the comprehensive fallback; and the
only exception handler on the balanced path is the one for
asyncio.TimeoutError, so every other exception reaches the caller. -/
def process_query (env : OrchEnv) (query : String) : Except Unit QAResponse :=
  match env.cached with
  | some r => .ok r
  | none =>
    if env.timedOut then generate_comprehensive_fallback env
    else process_query_balanced env query

end Orchestrator

/-- Environment in which every collaborator behaves except the analyser LLM
call (or the json.loads of its reply), which raises. -/
def orchestratorEnvBadAnalyze : Orchestrator.OrchEnv :=
  { cached := none, timedOut := false, logRes := .ok (), analyzeRes := .error (),
    clarifyRes := .ok "", saveConvRes := .ok (), decomposeRes := .ok [],
    subqRes := [], keywordRes := .ok [], embedRes := .ok [], vectorRes := .ok [],
    semanticRes := .ok [], rerankRes := .ok [], synthRes := .ok "",
    verifyRes := .ok ⟨false, 1⟩, treeRes := .ok [], breadcrumbRes := .ok [],
    stepsRes := .ok [] }

/-- C4 counterexample: process_query only handles asyncio.TimeoutError, so a
failure of the query-analysis step (LLM call or JSON parsing) propagates to
the caller instead of being converted into a fallback response. -/
theorem C4_counterexample :
    Orchestrator.process_query orchestratorEnvBadAnalyze "q" = Except.error () := rfl
/-- C4 amended: process_query returns a response whenever the thinking-step
store, conversation store, page-tree and breadcrumb graph reads, and the
LLM steps (analyse, clarify, decompose, synthesise, verify) behave —
REGARDLESS of search-index, embedding-service and reranker failures, which
are absorbed into empty results or fallback orderings; cached responses and
timeouts also produce responses.  Only the collaborators listed in the
hypotheses can make process_query propagate an exception, and the
counterexample shows the analyser doing exactly that. -/
theorem C4_search_failures_absorbed (env : Orchestrator.OrchEnv) (q : String)
    (qa : Orchestrator.QueryAnalysis) (clar : String) (subqs : List String)
    (ans : String) (risk : Bool) (conf : ℚ) (trees : List String)
    (bcs : List (List String)) (steps : List String)
    (hlog : env.logRes = .ok ()) (hana : env.analyzeRes = .ok qa)
    (hclar : env.clarifyRes = .ok clar) (hsave : env.saveConvRes = .ok ())
    (hdec : env.decomposeRes = .ok subqs) (hsyn : env.synthRes = .ok ans)
    (hver : env.verifyRes = .ok ⟨risk, conf⟩) (htree : env.treeRes = .ok trees)
    (hbc : env.breadcrumbRes = .ok bcs) (hsteps : env.stepsRes = .ok steps) :
    ∃ r, Orchestrator.process_query env q = Except.ok r := by
  obtain ⟨cls, sqs⟩ := qa
  have hatomic : ∃ r, Orchestrator.handle_atomic_query env = Except.ok r := by
    simp only [Orchestrator.handle_atomic_query]
    rw [hlog, hsyn, hver, htree, hsteps]
    exact ⟨_, rfl⟩
  have hclarif : ∃ r, Orchestrator.handle_clarification env = Except.ok r := by
    simp only [Orchestrator.handle_clarification]
    rw [hlog, hclar, hsave, hsteps]
    exact ⟨_, rfl⟩
  have hcomplex : ∃ r, Orchestrator.handle_complex_query env ⟨cls, sqs⟩
      = Except.ok r := by
    cases sqs with
    | nil =>
      cases risk
      · simp only [Orchestrator.handle_complex_query]
        rw [hlog, hdec, hsyn, hver, htree, hsave, hsteps]
        exact ⟨_, rfl⟩
      · simp only [Orchestrator.handle_complex_query]
        rw [hlog, hdec, hsyn, hver, htree, hbc, hsave, hsteps]
        exact ⟨_, rfl⟩
    | cons s ss =>
      cases risk
      · simp only [Orchestrator.handle_complex_query]
        rw [hlog, hsyn, hver, htree, hsave, hsteps]
        exact ⟨_, rfl⟩
      · simp only [Orchestrator.handle_complex_query]
        rw [hlog, hsyn, hver, htree, hbc, hsave, hsteps]
        exact ⟨_, rfl⟩
  have hdisp : ∃ r, Orchestrator.analyze_and_dispatch env = Except.ok r := by
    simp only [Orchestrator.analyze_and_dispatch]
    rw [hana]
    cases cls
    · exact hatomic
    · exact hcomplex
    · exact hclarif
  cases hc : env.cached with
  | some r =>
    refine ⟨r, ?_⟩
    simp only [Orchestrator.process_query]
    rw [hc]
  | none =>
    cases ht : env.timedOut with
    | true =>
      have hfall : ∃ r, Orchestrator.generate_comprehensive_fallback env
          = Except.ok r := by
        simp only [Orchestrator.generate_comprehensive_fallback]
        rw [hsteps]
        cases Orchestrator.execute_keyword_search env with
        | nil => exact ⟨_, rfl⟩
        | cons a l => exact ⟨_, rfl⟩
      obtain ⟨r, hr⟩ := hfall
      refine ⟨r, ?_⟩
      simp only [Orchestrator.process_query]
      rw [hc, ht, if_pos rfl] at *
      exact hr
    | false =>
      have hbal : ∃ r, Orchestrator.process_query_balanced env q
          = Except.ok r := by
        simp only [Orchestrator.process_query_balanced]
        rw [hlog]
        cases hqp : Orchestrator.check_quick_patterns q with
        | none => exact hdisp
        | some qp =>
          have hpb : ∃ r, Orchestrator.pattern_branch env qp = Except.ok r := by
            simp only [Orchestrator.pattern_branch]
            by_cases hconf : (19 : ℚ)/20 < qp.confidence
            · rw [if_pos hconf, if_pos
                (show (9 : ℚ)/10 < Orchestrator.verify_pattern_confidence by
                  norm_num [Orchestrator.verify_pattern_confidence]), hsteps]
              exact ⟨_, rfl⟩
            · rw [if_neg hconf]
              exact hdisp
          exact hpb
      obtain ⟨r, hr⟩ := hbal
      refine ⟨r, ?_⟩
      simp only [Orchestrator.process_query]
      rw [hc, ht, if_neg (by simp)]
      exact hr

/-- Environment in which the stores and the LLM steps behave but the search
index, the embedding service and the reranker all fail. -/
def orchestratorEnvSearchDown : Orchestrator.OrchEnv :=
  { cached := none, timedOut := false, logRes := .ok (),
    analyzeRes := .ok ⟨Orchestrator.Classification.atomic, []⟩,
    clarifyRes := .ok "please clarify", saveConvRes := .ok (),
    decomposeRes := .ok ["sub1"], subqRes := [.error ()],
    keywordRes := .error (), embedRes := .error (), vectorRes := .error (),
    semanticRes := .error (), rerankRes := .error (),
    synthRes := .ok "the answer", verifyRes := .ok ⟨false, 4/5⟩,
    treeRes := .ok ["tree"], breadcrumbRes := .ok [["root", "leaf"]],
    stepsRes := .ok ["step1"] }

/-- C4 witness: with every search-side collaborator failing and the remaining
collaborators behaving, process_query still returns a response. -/
theorem C4_search_failures_witness :
    (orchestratorEnvSearchDown.logRes = .ok ()
      ∧ orchestratorEnvSearchDown.analyzeRes
          = .ok ⟨Orchestrator.Classification.atomic, []⟩
      ∧ orchestratorEnvSearchDown.clarifyRes = .ok "please clarify"
      ∧ orchestratorEnvSearchDown.saveConvRes = .ok ()
      ∧ orchestratorEnvSearchDown.decomposeRes = .ok ["sub1"]
      ∧ orchestratorEnvSearchDown.synthRes = .ok "the answer"
      ∧ orchestratorEnvSearchDown.verifyRes = .ok ⟨false, 4/5⟩
      ∧ orchestratorEnvSearchDown.treeRes = .ok ["tree"]
      ∧ orchestratorEnvSearchDown.breadcrumbRes = .ok [["root", "leaf"]]
      ∧ orchestratorEnvSearchDown.stepsRes = .ok ["step1"])
    ∧ (∃ r, Orchestrator.process_query orchestratorEnvSearchDown "how to deploy"
        = Except.ok r) :=
  ⟨⟨rfl, rfl, rfl, rfl, rfl, rfl, rfl, rfl, rfl, rfl⟩,
   C4_search_failures_absorbed orchestratorEnvSearchDown "how to deploy"
     ⟨Orchestrator.Classification.atomic, []⟩ "please clarify" ["sub1"]
     "the answer" false (4/5) ["tree"] [["root", "leaf"]] ["step1"]
     rfl rfl rfl rfl rfl rfl rfl rfl rfl rfl⟩
